import Mathlib

/-!
# markgone: title, body and tag extraction

A shallow embedding of `markgone.go`.

* A Go `string` is modelled by the list of its characters (`Str`).  Every
  operation of the program inspects ASCII characters only (line feed, space,
  the `Tags: ` prefix, the characters HTML escaping replaces), so the
  byte view and the character view of a text agree.
* A Go slice of strings is modelled by a `List Str`; where the program
  re-slices a slice while it mutates the backing array
  (`emptyStringsStripped`) the backing array and the current length are both
  kept explicitly.
* A run-time panic (index or slice bound out of range) is the value `none`.
* `io.Writer` is modelled by the text written so far; writing appends.
-/

namespace Markgone

/-- A Go string. -/
abbrev Str := List Char

/-- The `words` argument of `ToHTML`, a Go `map[string]string`. -/
abbrev Words := Str → Option Str

/-! ## Go library functions used by the program -/

/-- Go `strings.Split(s, sep)` for a separator of one character: the pieces of
`s` between the occurrences of `sep`; always at least one piece. -/
def Split (s : Str) (sep : Char) : List Str :=
  s.splitOn sep

/-- Go `strings.Join(elems, sep)`. -/
def Join (elems : List Str) (sep : Str) : Str :=
  sep.intercalate elems

/-- Go `strings.TrimRight(s, cutset)`: `s` without its trailing characters that
occur in `cutset`. -/
def TrimRight (s : Str) (cutset : Str) : Str :=
  s.rdropWhile (fun c => decide (c ∈ cutset))

/-- Go `strings.HasPrefix(s, prefix)`:
`len(s) >= len(prefix) && s[:len(prefix)] == prefix`. -/
def HasPrefix (s pre : Str) : Bool :=
  decide (pre.length ≤ s.length) && decide (s.take pre.length = pre)

/-- The replacement Go `text/template.HTMLEscape` writes for one character
(`html/template.HTMLEscape` and `HTMLEscapeString` forward to it). -/
def htmlEscapeChar (c : Char) : Str :=
  if c = Char.ofNat 0 then [Char.ofNat 0xFFFD]
  else if c = '"' then "&#34;".toList
  else if c = '\'' then "&#39;".toList
  else if c = '&' then "&amp;".toList
  else if c = '<' then "&lt;".toList
  else if c = '>' then "&gt;".toList
  else [c]

/-- Go `template.HTMLEscapeString(s)`. -/
def HTMLEscapeString (s : Str) : Str :=
  (s.map htmlEscapeChar).flatten

/-- The slice expression `s[lo:]` of Go: it panics unless `lo <= len(s)`. -/
def sliceFrom {α : Type} (s : List α) (lo : Nat) : Option (List α) :=
  if lo ≤ s.length then some (s.drop lo) else none

/-- The slice expression `s[:hi]` of Go.  Go panics unless `hi <= cap(s)`; the
model asks for `hi <= len(s)`, which is the same for the result of
`strings.Split` and stricter for a re-sliced slice. -/
def sliceTo {α : Type} (s : List α) (hi : Nat) : Option (List α) :=
  if hi ≤ s.length then some (s.take hi) else none

/-! ## The program -/

/-- `isTitle(lines)`: both index expressions panic when out of range. -/
def isTitle (lines : List Str) : Option Bool := do
  let l0 ← lines[0]?
  let l1 ← lines[1]?
  if l0 ≠ [] ∧ l1 = [] then
    pure true
  else
    pure false

/-- `leadingBlankStripped(lines)`. -/
def leadingBlankStripped : List Str → List Str
  | [] => []
  | l :: rest => if l ≠ [] then l :: rest else leadingBlankStripped rest

/-- The recursion of `trailingBlankStripped`, on `lines[:length-1]`; the first
argument bounds the depth of the recursion. -/
def trailingBlankStrippedAux : Nat → List Str → List Str
  | 0, lines => lines
  | n + 1, lines =>
    let length := lines.length
    if length = 0 then lines
    else if lines.getD (length - 1) [] ≠ [] then lines
    else trailingBlankStrippedAux n (lines.take (length - 1))

/-- `trailingBlankStripped(lines)`: every recursive call is on a slice one
shorter, so `len(lines)` calls suffice. -/
def trailingBlankStripped (lines : List Str) : List Str :=
  trailingBlankStrippedAux lines.length lines

/-- `trailingSpacesStripped(lines)`: the loop
`for i, line := range lines { lines[i] = strings.TrimRight(line, " ") }`. -/
def trailingSpacesStripped (lines : List Str) : List Str :=
  (List.range lines.length).foldl
    (fun ls i => ls.set i (TrimRight (ls.getD i []) [' '])) lines

/-- The first three statements of `preparedBody`: the line sequence after the
three normalization passes. -/
def normalized (lines : List Str) : List Str :=
  trailingSpacesStripped (trailingBlankStripped (leadingBlankStripped lines))

/-- One iteration of the loop of `emptyStringsStripped` at index `i`.
`arr` is the backing array of the ranged-over slice (the range expression is
evaluated once, so `str` is `arr[i]` as it is at this iteration) and `len` is
the current length of the variable `strings`, which shares that array.
`strings[:i]` needs `i <= cap`, `strings[i+1:]` needs `i+1 <= len`; the
`append` then moves `arr[i+1:len]` down by one in place and leaves the rest of
the array as it was. -/
def emptyStringsStrippedStep (i : Nat) (st : List Str × Nat) : Option (List Str × Nat) :=
  let arr := st.1
  let len := st.2
  if arr.getD i [] = [] then
    if i ≤ arr.length ∧ i + 1 ≤ len then
      some (arr.take i ++ (arr.take len).drop (i + 1) ++ arr.drop (len - 1), len - 1)
    else none
  else some (arr, len)

/-- The iterations of the loop of `emptyStringsStripped` over the given
indices. -/
def emptyStringsStrippedLoop : List Nat → List Str × Nat → Option (List Str × Nat)
  | [], st => some st
  | i :: rest, st =>
    match emptyStringsStrippedStep i st with
    | none => none
    | some st' => emptyStringsStrippedLoop rest st'

/-- `emptyStringsStripped(strings)`. -/
def emptyStringsStripped (strings : List Str) : Option (List Str) :=
  match emptyStringsStrippedLoop (List.range strings.length) (strings, strings.length) with
  | none => none
  | some (arr, len) => some (arr.take len)

/-- `preparedBody(lines)`; the second component is `none` for a `nil` tag
slice.  The right operand of `&&` is evaluated only when the left one holds. -/
def preparedBody (lines : List Str) : Option (List Str × Option (List Str)) := do
  let lines := leadingBlankStripped lines
  let lines := trailingBlankStripped lines
  let lines := trailingSpacesStripped lines
  let length := lines.length
  if length ≤ 1 then
    pure (lines, none)
  else
    let lastLine ← lines[length - 1]?
    let tagLinePrefix : Str := "Tags: ".toList
    let tagLine? ← (if HasPrefix lastLine tagLinePrefix then do
        let beforeLast ← lines[length - 2]?
        pure (decide (beforeLast = []))
      else pure false)
    if tagLine? then
      let lastLine ← sliceFrom lastLine tagLinePrefix.length
      let tags := Split lastLine ' '
      let tags ← emptyStringsStripped tags
      let body ← sliceTo lines (length - 2)
      pure (body, some tags)
    else
      pure (lines, none)

/-- `prepared(text)`.  The right operand of `&&` is evaluated only when the
left one holds. -/
def prepared (text : Str) : Option (Str × List Str × Option (List Str)) := do
  let lines := Split text '\n'
  let length := lines.length
  let title? ← (if 2 ≤ length then do
      let firstTwo ← sliceTo lines 2
      isTitle firstTwo
    else pure false)
  if title? then
    let title ← lines[0]?
    let rest ← sliceFrom lines 2
    let (body, tags) ← preparedBody rest
    pure (title, body, tags)
  else
    let (body, tags) ← preparedBody lines
    pure ([], body, tags)

/-- `titleToHTML(w, title)`. -/
def titleToHTML (w : Str) (title : Str) : Str :=
  let w := w ++ "<h2>".toList
  let w := w ++ HTMLEscapeString title
  w ++ "</h2>".toList ++ ['\n']

/-- `tagsToHTML(w, tags)`. -/
def tagsToHTML (w : Str) (tags : List Str) : Str :=
  let w := w ++ "<div class=\"taglist\">".toList ++ ['\n']
  let w := w ++ "<strong>Tags:</strong>".toList ++ ['\n']
  let w := tags.foldl (fun w tag =>
    let tag := HTMLEscapeString tag
    w ++ "<a href=\"/tag/".toList ++ tag ++ "\" rel=\"tag\">".toList ++ tag ++ "</a>\n".toList) w
  w ++ "</div>".toList ++ ['\n']

/-- `ToHTML(w, text, words)`; `docToHTML text words` is the text Go's
`doc.ToHTML` writes for `text` and `words`. -/
def ToHTML (docToHTML : Str → Words → Str) (w : Str) (text : Str) (words : Words) :
    Option Str := do
  let (title, body, tags) ← prepared text
  let w := if title ≠ [] then titleToHTML w title else w
  let w := w ++ docToHTML (Join body ['\n']) words
  match tags with
  | some tags => pure (tagsToHTML w tags)
  | none => pure w

/-- `ToHTMLString(text, words)`. -/
def ToHTMLString (docToHTML : Str → Words → Str) (text : Str) (words : Words) : Option Str :=
  ToHTML docToHTML [] text words

/-! ## Further definitions used by the proofs -/

/-- The entities `htmlEscapeChar` writes. -/
def htmlEntities : List Str :=
  ["&#34;".toList, "&#39;".toList, "&amp;".toList, "&lt;".toList, "&gt;".toList]

/-- `leadingBlankStripped(lines)` with a bound on the number of calls: `none`
when the bound is used up before the recursion ends. -/
def leadingBlankStrippedFuel : Nat → List Str → Option (List Str)
  | 0, _ => none
  | n + 1, lines =>
    if lines.length = 0 then some lines
    else if lines.getD 0 [] ≠ [] then some lines
    else leadingBlankStrippedFuel n (lines.drop 1)

/-- `trailingBlankStripped(lines)` with a bound on the number of calls: `none`
when the bound is used up before the recursion ends. -/
def trailingBlankStrippedFuel : Nat → List Str → Option (List Str)
  | 0, _ => none
  | n + 1, lines =>
    let length := lines.length
    if length = 0 then some lines
    else if lines.getD (length - 1) [] ≠ [] then some lines
    else trailingBlankStrippedFuel n (lines.take (length - 1))

/-- The loop invariant when the last string `x` of the slice is not empty:
the slice variable still ends with `x`, and so does every position of the
backing array behind it. -/
def TailInv (x : Str) (n : Nat) (st : List Str × Nat) : Prop :=
  st.1.length = n ∧ 1 ≤ st.2 ∧ st.2 ≤ n ∧ ∀ j, st.2 - 1 ≤ j → j < n → st.1[j]? = some x

/-- The loop invariant when, besides, no two neighbours of the slice `orig`
are both empty: the slice variable is `done ++ rest`, where `done` holds the
strings kept so far, none of them empty, and `rest` is the part of `orig` the
loop has not reached, which index `i` is the start of. -/
def StripInv (x : Str) (n : Nat) (orig : List Str) (i : Nat) (st : List Str × Nat) : Prop :=
  TailInv x n st ∧ ∃ done rest, st.1.take st.2 = done ++ rest ∧ (∀ d ∈ done, d ≠ []) ∧
    done.length ≤ i ∧ (rest ≠ [] → done.length = i) ∧
    List.Chain' (fun a b : Str => ¬ (a = [] ∧ b = [])) rest ∧
    (rest ≠ [] → rest.getLast? = some x) ∧
    (done ++ rest).filter (fun s => decide (s ≠ [])) = orig.filter (fun s => decide (s ≠ []))

/-- The loop invariant once a string has been removed from a slice whose last
string is empty: every position of the backing array behind the slice variable
holds the empty string, and so does the last position of the slice variable
while index `i` is inside it. -/
def StaleInv (n : Nat) (i : Nat) (st : List Str × Nat) : Prop :=
  st.1.length = n ∧ st.2 < n ∧ (∀ j, st.2 ≤ j → j < n → st.1[j]? = some []) ∧
    (i < st.2 → st.1[st.2 - 1]? = some [])

/-! ## The Go library functions -/

theorem TrimRight_space (s : Str) :
    TrimRight s [' '] = s.rdropWhile (fun c => decide (c = ' ')) := by
  unfold TrimRight
  congr 1
  funext c
  simp

/-! ## The three normalization passes -/

theorem leadingBlankStripped_eq_dropWhile (lines : List Str) :
    leadingBlankStripped lines = lines.dropWhile (fun l => decide (l = [])) := by
  induction lines with
  | nil => rfl
  | cons l rest ih =>
    by_cases h : l = []
    · simp [leadingBlankStripped, h, ih]
    · simp [leadingBlankStripped, h]

theorem trailingBlankStrippedAux_eq_rdropWhile (n : Nat) (lines : List Str)
    (h : lines.length ≤ n) :
    trailingBlankStrippedAux n lines = lines.rdropWhile (fun l => decide (l = [])) := by
  induction n generalizing lines with
  | zero =>
    have : lines = [] := List.length_eq_zero.mp (Nat.le_zero.mp h)
    subst this
    rfl
  | succ n ih =>
    rcases List.eq_nil_or_concat lines with hnil | ⟨init, last, hl⟩
    · subst hnil
      rfl
    · rw [List.concat_eq_append] at hl
      subst hl
      have hlen : (init ++ [last]).length - 1 = init.length := by simp
      have hget : (init ++ [last]).getD init.length [] = last := by
        simp [List.getD_eq_getElem?_getD]
      by_cases hb : last = []
      · have hi : init.length ≤ n := by simpa using h
        simp only [trailingBlankStrippedAux, hlen, hget]
        rw [List.rdropWhile_concat_pos (fun l => decide (l = [])) init last (by simpa using hb)]
        simp [hb, ih init hi]
      · simp only [trailingBlankStrippedAux, hlen, hget]
        rw [List.rdropWhile_concat_neg (fun l => decide (l = [])) init last (by simpa using hb)]
        simp [hb]

theorem trailingBlankStripped_eq_rdropWhile (lines : List Str) :
    trailingBlankStripped lines = lines.rdropWhile (fun l => decide (l = [])) :=
  trailingBlankStrippedAux_eq_rdropWhile lines.length lines (Nat.le_refl _)

theorem trailingSpacesStripped_loop (f : Str → Str) (lines : List Str) (k : Nat)
    (hk : k ≤ lines.length) :
    (List.range k).foldl (fun ls i => ls.set i (f (ls.getD i []))) lines
      = (lines.take k).map f ++ lines.drop k := by
  induction k with
  | zero => simp
  | succ k ih =>
    have hk' : k < lines.length := hk
    rw [List.range_succ, List.foldl_append, ih (Nat.le_of_lt hk')]
    simp only [List.foldl_cons, List.foldl_nil]
    have hlen : ((lines.take k).map f).length = k := by simp [Nat.le_of_lt hk']
    have hdrop : lines.drop k = lines[k] :: lines.drop (k + 1) := by
      rw [List.drop_eq_getElem_cons hk']
    rw [hdrop, List.getD_eq_getElem?_getD, List.getElem?_append_right (by simp [hlen])]
    rw [List.set_append_right _ _ (by simp [hlen])]
    simp only [hlen, Nat.sub_self, List.getElem?_cons_zero, Option.getD_some, List.set_cons_zero]
    have htake : lines.take (k + 1) = lines.take k ++ [lines[k]] := by
      rw [List.take_succ, List.getElem?_eq_getElem hk']
      rfl
    rw [htake, List.map_append, List.append_assoc]
    rfl

theorem trailingSpacesStripped_eq_map (lines : List Str) :
    trailingSpacesStripped lines = lines.map (fun l => TrimRight l [' ']) := by
  unfold trailingSpacesStripped
  rw [trailingSpacesStripped_loop (fun l => TrimRight l [' ']) lines lines.length (Nat.le_refl _)]
  simp

/-! ## The loop of `emptyStringsStripped` -/

/-- The backing array after one removal at index `i`. -/
theorem removed_getElem? (arr : List Str) (len i j : Nat)
    (hi : i + 1 ≤ len) (hlen : len ≤ arr.length) :
    (arr.take i ++ (arr.take len).drop (i + 1) ++ arr.drop (len - 1))[j]?
      = if j < i then arr[j]? else if j < len - 1 then arr[j + 1]? else arr[j]? := by
  have h1 : (arr.take i).length = i := by simp; omega
  have h2 : ((arr.take len).drop (i + 1)).length = len - (i + 1) := by simp; omega
  by_cases hj : j < i
  · rw [if_pos hj, List.append_assoc, List.getElem?_append_left (by omega)]
    simp [List.getElem?_take, hj]
  · rw [if_neg hj, List.append_assoc, List.getElem?_append_right (by omega), h1]
    by_cases hj2 : j < len - 1
    · rw [if_pos hj2, List.getElem?_append_left (by omega)]
      rw [List.getElem?_drop, List.getElem?_take]
      have e : i + 1 + (j - i) = j + 1 := by omega
      rw [e, if_pos (by omega)]
    · rw [if_neg hj2, List.getElem?_append_right (by omega), h2, List.getElem?_drop]
      congr 1
      omega

theorem removed_length (arr : List Str) (len i : Nat)
    (hi : i + 1 ≤ len) (hlen : len ≤ arr.length) :
    (arr.take i ++ (arr.take len).drop (i + 1) ++ arr.drop (len - 1)).length = arr.length := by
  simp
  omega

theorem emptyStringsStrippedStep_tailInv (x : Str) (hx : x ≠ []) (n i : Nat) (hi : i < n)
    (st : List Str × Nat) (h : TailInv x n st) :
    ∃ st', emptyStringsStrippedStep i st = some st' ∧ TailInv x n st' := by
  obtain ⟨arr, len⟩ := st
  obtain ⟨hn, h1, h2, h3⟩ := h
  simp only at hn h1 h2 h3
  unfold emptyStringsStrippedStep
  simp only
  by_cases he : arr.getD i [] = []
  · have hlt : i < len - 1 := by
      by_contra hc
      have := h3 i (by omega) hi
      rw [List.getD_eq_getElem?_getD, this] at he
      exact hx he
    rw [if_pos he, if_pos ⟨by omega, by omega⟩]
    refine ⟨_, rfl, ?_, ?_, ?_, ?_⟩
    · simp only
      rw [removed_length arr len i (by omega) (by omega)]
      exact hn
    · simp only
      omega
    · simp only
      omega
    · intro j hj hjn
      simp only at hj ⊢
      rw [removed_getElem? arr len i j (by omega) (by omega), if_neg (by omega)]
      by_cases hj2 : j < len - 1
      · rw [if_pos hj2]
        exact h3 (j + 1) (by omega) (by omega)
      · rw [if_neg hj2]
        exact h3 j (by omega) hjn
  · rw [if_neg he]
    exact ⟨_, rfl, hn, h1, h2, h3⟩

theorem emptyStringsStrippedLoop_tailInv (x : Str) (hx : x ≠ []) (n : Nat)
    (idxs : List Nat) (hidx : ∀ i ∈ idxs, i < n)
    (st : List Str × Nat) (h : TailInv x n st) :
    ∃ st', emptyStringsStrippedLoop idxs st = some st' ∧ TailInv x n st' := by
  induction idxs generalizing st with
  | nil => exact ⟨st, rfl, h⟩
  | cons i rest ih =>
    obtain ⟨st1, hs, hinv⟩ :=
      emptyStringsStrippedStep_tailInv x hx n i (hidx i (List.mem_cons_self _ _)) st h
    obtain ⟨st2, hl, hinv2⟩ := ih (fun k hk => hidx k (List.mem_cons_of_mem _ hk)) st1 hinv
    refine ⟨st2, ?_, hinv2⟩
    simp only [emptyStringsStrippedLoop, hs]
    exact hl

/-- On a slice whose last string is not empty `emptyStringsStripped` does not
panic, and what it returns is not empty and still ends with that string. -/
theorem emptyStringsStripped_of_getLast_ne_nil (strs : List Str) (x : Str)
    (hlast : strs.getLast? = some x) (hx : x ≠ []) :
    ∃ r, emptyStringsStripped strs = some r ∧ r.getLast? = some x := by
  have hne : strs ≠ [] := by
    intro h
    simp [h] at hlast
  have hpos : 0 < strs.length := List.length_pos.mpr hne
  have hinv : TailInv x strs.length (strs, strs.length) := by
    refine ⟨rfl, hpos, Nat.le_refl _, ?_⟩
    intro j hj hjn
    simp only at hj
    have : j = strs.length - 1 := by omega
    subst this
    rw [← hlast, List.getLast?_eq_getElem?]
  obtain ⟨⟨arr, len⟩, hl, hn, h1, h2, h3⟩ :=
    emptyStringsStrippedLoop_tailInv x hx strs.length (List.range strs.length)
      (fun i hi => List.mem_range.mp hi) _ hinv
  simp only at hn h1 h2 h3
  refine ⟨arr.take len, ?_, ?_⟩
  · simp only [emptyStringsStripped, hl]
  · rw [List.getLast?_eq_getElem?, List.length_take, List.getElem?_take]
    have e : min len arr.length - 1 = len - 1 := by omega
    rw [e, if_pos (by omega)]
    exact h3 (len - 1) (Nat.le_refl _) (by omega)

/-! ## Splitting -/

theorem Split_cons (c : Char) (s : Str) (sep : Char) :
    Split (c :: s) sep
      = if c = sep then [] :: Split s sep else (Split s sep).modifyHead (List.cons c) := by
  unfold Split List.splitOn
  rw [List.splitOnP_cons]
  by_cases h : c = sep <;> simp [h]

theorem Split_ne_nil (s : Str) (sep : Char) : Split s sep ≠ [] :=
  List.splitOnP_ne_nil _ _

/-- The last piece of a split is not empty when the text is not empty and does
not end with the separator. -/
theorem Split_getLast?_ne_nil (s : Str) (sep : Char) (hs : s ≠ [])
    (hl : s.getLast? ≠ some sep) :
    ∃ x, (Split s sep).getLast? = some x ∧ x ≠ [] := by
  induction s with
  | nil => exact absurd rfl hs
  | cons c t ih =>
    rw [Split_cons]
    cases t with
    | nil =>
      have hc : c ≠ sep := by
        intro h
        apply hl
        simp [h]
      rw [if_neg hc]
      exact ⟨[c], by simp [Split, List.splitOn], by simp⟩
    | cons d t' =>
      have hl' : (d :: t').getLast? ≠ some sep := by
        simpa [List.getLast?_cons_cons] using hl
      obtain ⟨x, hx, hxne⟩ := ih (by simp) hl'
      by_cases hc : c = sep
      · rw [if_pos hc]
        refine ⟨x, ?_, hxne⟩
        cases hsp : Split (d :: t') sep with
        | nil => exact absurd hsp (Split_ne_nil _ _)
        | cons a b =>
          rw [hsp] at hx
          rw [List.getLast?_cons_cons]
          exact hx
      · rw [if_neg hc]
        cases hsp : Split (d :: t') sep with
        | nil => exact absurd hsp (Split_ne_nil _ _)
        | cons a b =>
          rw [hsp] at hx
          cases b with
          | nil => exact ⟨c :: a, by simp, by simp⟩
          | cons a' b' =>
            refine ⟨x, ?_, hxne⟩
            rw [List.getLast?_cons_cons] at hx
            simpa [List.getLast?_cons_cons] using hx

/-! ## Normalized lines -/

theorem normalized_def (lines : List Str) :
    trailingSpacesStripped (trailingBlankStripped (leadingBlankStripped lines))
      = normalized lines := rfl

theorem normalized_eq (lines : List Str) :
    normalized lines
      = ((lines.dropWhile (fun l => decide (l = []))).rdropWhile
          (fun l => decide (l = []))).map (fun l => TrimRight l [' ']) := by
  unfold normalized
  rw [trailingSpacesStripped_eq_map, trailingBlankStripped_eq_rdropWhile,
    leadingBlankStripped_eq_dropWhile]

theorem TrimRight_getLast? (s : Str) : (TrimRight s [' ']).getLast? ≠ some ' ' := by
  rw [TrimRight_space]
  intro h
  have hne : s.rdropWhile (fun c => decide (c = ' ')) ≠ [] := by
    intro h0
    rw [h0] at h
    simp at h
  have := List.rdropWhile_last_not (fun c => decide (c = ' ')) s hne
  rw [List.getLast?_eq_getLast _ hne] at h
  simp only [Option.some.injEq] at h
  simp [h] at this

theorem normalized_getLast? (lines : List Str) (l : Str) (hl : l ∈ normalized lines) :
    l.getLast? ≠ some ' ' := by
  rw [normalized_eq] at hl
  obtain ⟨l0, -, rfl⟩ := List.mem_map.mp hl
  exact TrimRight_getLast? l0

/-! ## `preparedBody` -/

theorem HasPrefix_iff (s pre : Str) : HasPrefix s pre = true ↔ pre <+: s := by
  unfold HasPrefix
  rw [List.prefix_iff_eq_take]
  constructor
  · intro h
    simp only [Bool.and_eq_true, decide_eq_true_eq] at h
    exact h.2.symm
  · intro h
    simp only [Bool.and_eq_true, decide_eq_true_eq]
    refine ⟨?_, h.symm⟩
    have := congrArg List.length h
    rw [List.length_take] at this
    omega

/-- The text after the `Tags: ` prefix of a line without trailing spaces is not
empty and does not end with a space. -/
theorem tagText_ne_nil (last : Str) (hp : "Tags: ".toList <+: last)
    (hl : last.getLast? ≠ some ' ') :
    last.drop "Tags: ".toList.length ≠ [] ∧
      (last.drop "Tags: ".toList.length).getLast? ≠ some ' ' := by
  obtain ⟨rest, rfl⟩ := hp
  rw [List.drop_left]
  have hne : rest ≠ [] := by
    intro h
    subst h
    exact hl (by decide)
  refine ⟨hne, ?_⟩
  intro h
  apply hl
  rw [List.getLast?_append, h]
  rfl

/-- The tag branch of `preparedBody`. -/
theorem preparedBody_tagLine (lines : List Str) (last : Str)
    (h2 : 2 ≤ (normalized lines).length)
    (hlast : (normalized lines)[(normalized lines).length - 1]? = some last)
    (hp : "Tags: ".toList <+: last)
    (hb : (normalized lines)[(normalized lines).length - 2]? = some []) :
    ∃ tags x, emptyStringsStripped (Split (last.drop "Tags: ".toList.length) ' ') = some tags ∧
      tags.getLast? = some x ∧ x ≠ [] ∧
      preparedBody lines
        = some ((normalized lines).take ((normalized lines).length - 2), some tags) := by
  have hmem : last ∈ normalized lines := List.getElem?_mem hlast
  have htrim := normalized_getLast? lines last hmem
  obtain ⟨hne, hsp⟩ := tagText_ne_nil last hp htrim
  obtain ⟨x, hx, hxne⟩ := Split_getLast?_ne_nil _ ' ' hne hsp
  obtain ⟨tags, ht, htl⟩ := emptyStringsStripped_of_getLast_ne_nil _ x hx hxne
  refine ⟨tags, x, ht, htl, hxne, ?_⟩
  have hpl : "Tags: ".toList.length ≤ last.length := hp.length_le
  have hnot : ¬ (normalized lines).length ≤ 1 := by omega
  have hpre : HasPrefix last "Tags: ".toList = true := (HasPrefix_iff _ _).mpr hp
  unfold preparedBody
  simp only [normalized_def]
  rw [if_neg hnot]
  simp only [hlast, hb, Option.bind_eq_bind, Option.some_bind, hpre, and_self, if_true,
    sliceFrom, if_pos hpl, ht, sliceTo, Option.pure_def]
  rw [if_pos (Nat.sub_le _ _)]
  rfl

/-- The other branches of `preparedBody`. -/
theorem preparedBody_noTagLine (lines : List Str)
    (h : ¬ (2 ≤ (normalized lines).length ∧
      (∃ last, (normalized lines)[(normalized lines).length - 1]? = some last ∧
        "Tags: ".toList <+: last) ∧
      (normalized lines)[(normalized lines).length - 2]? = some [])) :
    preparedBody lines = some (normalized lines, none) := by
  unfold preparedBody
  simp only [normalized_def]
  by_cases h1 : (normalized lines).length ≤ 1
  · rw [if_pos h1]
    rfl
  · rw [if_neg h1]
    have hl1 : (normalized lines).length - 1 < (normalized lines).length := by omega
    have hl2 : (normalized lines).length - 2 < (normalized lines).length := by omega
    rw [List.getElem?_eq_getElem hl1, List.getElem?_eq_getElem hl2]
    simp only [Option.bind_eq_bind, Option.some_bind]
    by_cases hp : HasPrefix (normalized lines)[(normalized lines).length - 1] "Tags: ".toList
        = true
    · have hb : ¬ (normalized lines)[(normalized lines).length - 2] = [] := by
        intro hb
        apply h
        refine ⟨by omega, ⟨_, List.getElem?_eq_getElem hl1, (HasPrefix_iff _ _).mp hp⟩, ?_⟩
        rw [List.getElem?_eq_getElem hl2, hb]
      rw [if_pos hp]
      simp [hb]
    · rw [if_neg hp]
      rfl

/-- `preparedBody` returns on every line sequence. -/
theorem preparedBody_total (lines : List Str) :
    ∃ body tags, preparedBody lines = some (body, tags) := by
  by_cases h : 2 ≤ (normalized lines).length ∧
      (∃ last, (normalized lines)[(normalized lines).length - 1]? = some last ∧
        "Tags: ".toList <+: last) ∧
      (normalized lines)[(normalized lines).length - 2]? = some []
  · obtain ⟨h2, ⟨last, hlast, hp⟩, hb⟩ := h
    obtain ⟨tags, _, _, _, _, hr⟩ := preparedBody_tagLine lines last h2 hlast hp hb
    exact ⟨_, _, hr⟩
  · exact ⟨_, _, preparedBody_noTagLine lines h⟩

theorem Split_eq_singleton (s : Str) (sep : Char) (h : sep ∉ s) : Split s sep = [s] := by
  unfold Split List.splitOn
  apply List.splitOnP_eq_single
  intro x hx hsep
  simp only [beq_iff_eq] at hsep
  exact h (hsep ▸ hx)

/-- What `preparedBody` returns: the normalized lines and no tags, or the
normalized lines without the last two and a tag list. -/
theorem preparedBody_cases (lines : List Str) :
    ∃ body tags, preparedBody lines = some (body, tags) ∧
      ((body = normalized lines ∧ tags = none) ∨
        (body = (normalized lines).take ((normalized lines).length - 2) ∧
          tags.isSome = true)) := by
  by_cases h : 2 ≤ (normalized lines).length ∧
      (∃ last, (normalized lines)[(normalized lines).length - 1]? = some last ∧
        "Tags: ".toList <+: last) ∧
      (normalized lines)[(normalized lines).length - 2]? = some []
  · obtain ⟨h2, ⟨last, hlast, hp⟩, hb⟩ := h
    obtain ⟨tags, _, _, _, _, hr⟩ := preparedBody_tagLine lines last h2 hlast hp hb
    exact ⟨_, _, hr, Or.inr ⟨rfl, rfl⟩⟩
  · exact ⟨_, _, preparedBody_noTagLine lines h, Or.inl ⟨rfl, rfl⟩⟩

theorem preparedBody_body_take (lines : List Str) :
    ∃ body tags k, preparedBody lines = some (body, tags) ∧
      body = (normalized lines).take k := by
  obtain ⟨body, tags, h, hc⟩ := preparedBody_cases lines
  rcases hc with ⟨hb, -⟩ | ⟨hb, -⟩
  · exact ⟨body, tags, (normalized lines).length, h, by rw [hb, List.take_length]⟩
  · exact ⟨body, tags, _, h, hb⟩

theorem tagsToHTML_loop (f : Str → Str) (tags : List Str) (w : Str) :
    tags.foldl (fun w tag => w ++ f tag) w = w ++ (tags.map f).flatten := by
  induction tags generalizing w with
  | nil => simp
  | cons t rest ih => simp [ih]

theorem tagsToHTML_eq (w : Str) (tags : List Str) :
    tagsToHTML w tags
      = w ++ ("<div class=\"taglist\">\n<strong>Tags:</strong>\n".toList ++
          (tags.map (fun tag => "<a href=\"/tag/".toList ++ HTMLEscapeString tag ++
            "\" rel=\"tag\">".toList ++ HTMLEscapeString tag ++ "</a>\n".toList)).flatten ++
          "</div>\n".toList) := by
  unfold tagsToHTML
  have h := tagsToHTML_loop (fun tag => "<a href=\"/tag/".toList ++ HTMLEscapeString tag ++
            "\" rel=\"tag\">".toList ++ HTMLEscapeString tag ++ "</a>\n".toList) tags
  simp only [List.append_assoc] at h ⊢
  rw [h]
  simp [List.append_assoc]

/-! ## The lines between the first and the last line that is not empty -/

theorem TrimRight_eq_nil_iff (s : Str) : TrimRight s [' '] = [] ↔ ∀ c ∈ s, c = ' ' := by
  rw [TrimRight_space, List.rdropWhile_eq_nil_iff]
  simp

theorem TrimRight_idempotent (s : Str) :
    TrimRight (TrimRight s [' ']) [' '] = TrimRight s [' '] := by
  rw [TrimRight_space, TrimRight_space]
  exact List.rdropWhile_idempotent _ _

theorem blankStripped_head?_ne_nil (lines : List Str) (l : Str)
    (h : ((lines.dropWhile (fun l => decide (l = []))).rdropWhile
      (fun l => decide (l = []))).head? = some l) : l ≠ [] := by
  have hpre := List.rdropWhile_prefix (fun l : Str => decide (l = []))
    (l := lines.dropWhile (fun l => decide (l = [])))
  obtain ⟨t, ht⟩ := hpre
  have hd : (lines.dropWhile (fun l => decide (l = []))).head? = some l := by
    rw [← ht, List.head?_append, h]
    rfl
  have := List.head?_dropWhile_not (fun l : Str => decide (l = [])) lines
  rw [hd] at this
  simpa using this

theorem blankStripped_getLast?_ne_nil (lines : List Str) (l : Str)
    (h : ((lines.dropWhile (fun l => decide (l = []))).rdropWhile
      (fun l => decide (l = []))).getLast? = some l) : l ≠ [] := by
  have hne : (lines.dropWhile (fun l => decide (l = []))).rdropWhile
      (fun l => decide (l = [])) ≠ [] := by
    intro h0
    rw [h0] at h
    simp at h
  have := List.rdropWhile_last_not (fun l : Str => decide (l = []))
    (lines.dropWhile (fun l => decide (l = []))) hne
  rw [List.getLast?_eq_getLast _ hne] at h
  simp only [Option.some.injEq] at h
  rw [h] at this
  simpa using this

theorem blankStripped_subset (lines : List Str) (l : Str)
    (h : l ∈ (lines.dropWhile (fun l => decide (l = []))).rdropWhile
      (fun l => decide (l = []))) : l ∈ lines :=
  (List.dropWhile_subset _) ((List.rdropWhile_prefix _ _).subset h)

theorem blankStripped_eq_take_drop (lines : List Str) :
    ∃ a m, a + m ≤ lines.length ∧
      (lines.dropWhile (fun l => decide (l = []))).rdropWhile (fun l => decide (l = []))
        = (lines.drop a).take m := by
  obtain ⟨pre, hpre⟩ := List.dropWhile_suffix (fun l : Str => decide (l = [])) (l := lines)
  obtain ⟨suf, hsuf⟩ := List.rdropWhile_prefix (fun l : Str => decide (l = []))
    (lines.dropWhile (fun l => decide (l = [])))
  generalize (lines.dropWhile (fun l => decide (l = []))).rdropWhile
    (fun l => decide (l = [])) = M at hsuf ⊢
  generalize lines.dropWhile (fun l => decide (l = [])) = D at hpre hsuf
  subst hsuf
  subst hpre
  refine ⟨pre.length, M.length, ?_, ?_⟩
  · simp
  · simp

theorem blankStripped_eq (lines : List Str) :
    trailingBlankStripped (leadingBlankStripped lines)
      = (lines.dropWhile (fun l => decide (l = []))).rdropWhile
          (fun l => decide (l = [])) := by
  rw [trailingBlankStripped_eq_rdropWhile, leadingBlankStripped_eq_dropWhile]

theorem normalized_eq_map (lines : List Str) :
    normalized lines
      = (trailingBlankStripped (leadingBlankStripped lines)).map
          (fun l => TrimRight l [' ']) := by
  unfold normalized
  rw [trailingSpacesStripped_eq_map]

theorem TrimRight_ne_nil_iff (s : Str) : TrimRight s [' '] ≠ [] ↔ ∃ c ∈ s, c ≠ ' ' := by
  rw [Ne, TrimRight_eq_nil_iff]
  push_neg
  rfl

/-- The first normalized line is not empty when the first line left by the
blank-line passes has a character that is not a space. -/
theorem normalized_head?_ne_nil (lines : List Str)
    (h : ∀ l, (trailingBlankStripped (leadingBlankStripped lines)).head? = some l →
      ∃ c ∈ l, c ≠ ' ') (t : Str)
    (ht : (normalized lines).head? = some t) : t ≠ [] := by
  rw [normalized_eq_map, List.head?_map] at ht
  obtain ⟨m, hm, rfl⟩ := Option.map_eq_some'.mp ht
  exact (TrimRight_ne_nil_iff m).mpr (h m hm)

/-- The last normalized line is not empty when the last line left by the
blank-line passes has a character that is not a space. -/
theorem normalized_getLast?_ne_nil (lines : List Str)
    (h : ∀ l, (trailingBlankStripped (leadingBlankStripped lines)).getLast? = some l →
      ∃ c ∈ l, c ≠ ' ') (t : Str)
    (ht : (normalized lines).getLast? = some t) : t ≠ [] := by
  rw [normalized_eq_map, List.getLast?_map] at ht
  obtain ⟨m, hm, rfl⟩ := Option.map_eq_some'.mp ht
  exact (TrimRight_ne_nil_iff m).mpr (h m hm)

/-- A line of normalized lines is its own trimming. -/
theorem normalized_mem_trimmed (lines : List Str) (t : Str) (ht : t ∈ normalized lines) :
    TrimRight t [' '] = t := by
  rw [normalized_eq_map] at ht
  obtain ⟨m, -, rfl⟩ := List.mem_map.mp ht
  exact TrimRight_idempotent m

/-- Normalized lines that are their own normalization do not begin with an
empty line. -/
theorem normalized_fixed_head? (lines : List Str)
    (hid : normalized (normalized lines) = normalized lines) (t : Str)
    (ht : (normalized lines).head? = some t) : t ≠ [] := by
  rw [← hid, normalized_eq, List.head?_map] at ht
  obtain ⟨m, hm, rfl⟩ := Option.map_eq_some'.mp ht
  have hmne := blankStripped_head?_ne_nil (normalized lines) m hm
  have hmem := blankStripped_subset (normalized lines) m (List.mem_of_mem_head? hm)
  rw [normalized_mem_trimmed lines m hmem]
  exact hmne

/-- Normalized lines that are their own normalization do not end with an
empty line. -/
theorem normalized_fixed_getLast? (lines : List Str)
    (hid : normalized (normalized lines) = normalized lines) (t : Str)
    (ht : (normalized lines).getLast? = some t) : t ≠ [] := by
  rw [← hid, normalized_eq, List.getLast?_map] at ht
  obtain ⟨m, hm, rfl⟩ := Option.map_eq_some'.mp ht
  have hmne := blankStripped_getLast?_ne_nil (normalized lines) m hm
  have hmem := blankStripped_subset (normalized lines) m (List.mem_of_mem_getLast? hm)
  rw [normalized_mem_trimmed lines m hmem]
  exact hmne

theorem dropWhile_eq_self_of_head? {α : Type} (p : α → Bool) (l : List α)
    (h : ∀ x, l.head? = some x → p x = false) : l.dropWhile p = l := by
  cases l with
  | nil => rfl
  | cons x t =>
    have := h x rfl
    simp [List.dropWhile_cons, this]

theorem rdropWhile_eq_self_of_getLast? {α : Type} (p : α → Bool) (l : List α)
    (h : ∀ x, l.getLast? = some x → p x = false) : l.rdropWhile p = l := by
  rw [List.rdropWhile_eq_self_iff]
  intro hl
  have := h _ (List.getLast?_eq_getLast l hl)
  simp [this]

/-- The two branches of `prepared`. -/
theorem prepared_branches (text : Str) :
    ∀ lines : List Str, lines = Split text '\n' →
    ((2 ≤ lines.length ∧ (∃ l0, lines[0]? = some l0 ∧ l0 ≠ []) ∧ lines[1]? = some []) →
      ∃ title body tags, lines[0]? = some title ∧
        preparedBody (lines.drop 2) = some (body, tags) ∧
        prepared text = some (title, body, tags)) ∧
    (¬ (2 ≤ lines.length ∧ (∃ l0, lines[0]? = some l0 ∧ l0 ≠ []) ∧ lines[1]? = some []) →
      ∃ body tags, preparedBody lines = some (body, tags) ∧
        prepared text = some ([], body, tags)) := by
  intro lines hl
  constructor
  · rintro ⟨h2, ⟨l0, h0, hne⟩, h1⟩
    obtain ⟨body, tags, hb⟩ := preparedBody_total (lines.drop 2)
    refine ⟨l0, body, tags, h0, hb, ?_⟩
    unfold prepared
    rw [← hl]
    match lines, h2, h0, h1, hb with
    | a :: b :: rest, _, h0, h1, hb =>
      simp only [List.getElem?_cons_zero, Option.some.injEq, List.getElem?_cons_succ] at h0 h1
      subst h0 h1
      simp only [List.drop_succ_cons, List.drop_zero] at hb
      simp [sliceTo, sliceFrom, isTitle, hne, hb]
  · intro hc
    obtain ⟨body, tags, hb⟩ := preparedBody_total lines
    refine ⟨body, tags, hb, ?_⟩
    unfold prepared
    rw [← hl]
    match lines, hc, hb with
    | [], _, hb => simp [hb]
    | [a], _, hb => simp [hb]
    | a :: b :: rest, hc, hb =>
      have hnt : ¬ (a ≠ [] ∧ b = []) := by
        rintro ⟨ha, hb'⟩
        exact hc ⟨by simp, ⟨a, by simp, ha⟩, by simp [hb']⟩
      simp only [ne_eq, not_and, Decidable.not_not] at hnt
      by_cases ha : a = []
      · subst ha
        simp [sliceTo, isTitle, hb]
      · have hbn : b ≠ [] := hnt ha
        simp [sliceTo, isTitle, ha, hbn, hb]

/-- `prepared` returns on every text. -/
theorem prepared_total (text : Str) :
    ∃ title body tags, prepared text = some (title, body, tags) := by
  by_cases h : 2 ≤ (Split text '\n').length ∧
      (∃ l0, (Split text '\n')[0]? = some l0 ∧ l0 ≠ []) ∧ (Split text '\n')[1]? = some []
  · obtain ⟨title, body, tags, -, -, hp⟩ := (prepared_branches text _ rfl).1 h
    exact ⟨_, _, _, hp⟩
  · obtain ⟨body, tags, -, hp⟩ := (prepared_branches text _ rfl).2 h
    exact ⟨_, _, _, hp⟩

theorem tagsToHTML_append (w : Str) (tags : List Str) :
    tagsToHTML w tags = w ++ tagsToHTML [] tags := by
  rw [tagsToHTML_eq, tagsToHTML_eq]
  rfl

/-! ## A last line that is not empty -/

theorem dropWhile_append_singleton {α : Type} (p : α → Bool) (pre : List α) (l : α)
    (hl : p l = false) : ∃ pre', (pre ++ [l]).dropWhile p = pre' ++ [l] := by
  induction pre with
  | nil => exact ⟨[], by simp [List.dropWhile_cons, hl]⟩
  | cons a pre ih =>
    by_cases ha : p a = true
    · obtain ⟨pre', h⟩ := ih
      exact ⟨pre', by simp [List.dropWhile_cons, ha, h]⟩
    · exact ⟨a :: pre, by simp [List.dropWhile_cons, ha]⟩

/-- The normalized lines end with the trimmed last line when that line is not
empty. -/
theorem normalized_append_singleton (pre : List Str) (l : Str) (hl : l ≠ []) :
    ∃ pre', normalized (pre ++ [l]) = pre' ++ [TrimRight l [' ']] := by
  have hp : (fun l : Str => decide (l = [])) l = false := by simpa using hl
  obtain ⟨pre', h⟩ := dropWhile_append_singleton (fun l : Str => decide (l = [])) pre l hp
  refine ⟨pre'.map (fun l => TrimRight l [' ']), ?_⟩
  rw [normalized_eq, h,
    List.rdropWhile_concat_neg (fun l : Str => decide (l = [])) pre' l (by simpa using hl)]
  simp

theorem TrimRight_append_spaces (s : Str) (k : Nat) :
    TrimRight (s ++ List.replicate k ' ') [' '] = TrimRight s [' '] := by
  induction k with
  | zero => simp
  | succ k ih =>
    rw [List.replicate_succ', ← List.append_assoc, TrimRight_space,
      List.rdropWhile_concat_pos (fun c => decide (c = ' ')) _ ' ' (by decide),
      ← TrimRight_space, ih]

/-- A tag list that `preparedBody` returns ends with a string that is not
empty. -/
theorem preparedBody_tags_getLast? (lines body : List Str) (tags : List Str)
    (h : preparedBody lines = some (body, some tags)) :
    ∃ x, tags.getLast? = some x ∧ x ≠ [] := by
  by_cases hc : 2 ≤ (normalized lines).length ∧
      (∃ last, (normalized lines)[(normalized lines).length - 1]? = some last ∧
        "Tags: ".toList <+: last) ∧
      (normalized lines)[(normalized lines).length - 2]? = some []
  · obtain ⟨h2, ⟨last, hlast, hp⟩, hb⟩ := hc
    obtain ⟨tags', x, _, hx, hxne, hr⟩ := preparedBody_tagLine lines last h2 hlast hp hb
    rw [hr] at h
    simp only [Option.some.injEq, Prod.mk.injEq] at h
    obtain ⟨-, rfl⟩ := h
    exact ⟨x, hx, hxne⟩
  · rw [preparedBody_noTagLine lines hc] at h
    simp at h

/-- A tag list that `prepared` returns ends with a string that is not empty. -/
theorem prepared_tags_getLast? (text title : Str) (body tags : List Str)
    (h : prepared text = some (title, body, some tags)) :
    ∃ x, tags.getLast? = some x ∧ x ≠ [] := by
  by_cases hc : 2 ≤ (Split text '\n').length ∧
      (∃ l0, (Split text '\n')[0]? = some l0 ∧ l0 ≠ []) ∧ (Split text '\n')[1]? = some []
  · obtain ⟨title', body', tags', -, hb, hp⟩ := (prepared_branches text _ rfl).1 hc
    rw [hp] at h
    simp only [Option.some.injEq, Prod.mk.injEq] at h
    obtain ⟨-, rfl, rfl⟩ := h
    exact preparedBody_tags_getLast? _ _ _ hb
  · obtain ⟨body', tags', hb, hp⟩ := (prepared_branches text _ rfl).2 hc
    rw [hp] at h
    simp only [Option.some.injEq, Prod.mk.injEq] at h
    obtain ⟨-, rfl, rfl⟩ := h
    exact preparedBody_tags_getLast? _ _ _ hb

/-- The container of a tag list that is not empty is not the container without
anchors. -/
theorem tagsToHTML_ne_empty (w : Str) (tags : List Str) (h : tags ≠ []) :
    tagsToHTML w tags
      ≠ w ++ "<div class=\"taglist\">\n<strong>Tags:</strong>\n</div>\n".toList := by
  intro he
  rw [tagsToHTML_eq] at he
  have hlen := congrArg List.length (List.append_cancel_left he)
  cases tags with
  | nil => exact h rfl
  | cons t rest =>
    simp only [List.map_cons, List.flatten_cons, List.length_append] at hlen
    have h1 : ("<div class=\"taglist\">\n<strong>Tags:</strong>\n".toList).length
        + ("</div>\n".toList).length
        = ("<div class=\"taglist\">\n<strong>Tags:</strong>\n</div>\n".toList).length := by
      decide
    have h2 : 0 < ("<a href=\"/tag/".toList).length := by decide
    omega

/-! ## Lines in normal form -/

theorem TrimRight_eq_self (l : Str) (h : l.getLast? ≠ some ' ') : TrimRight l [' '] = l := by
  rw [TrimRight_space]
  apply rdropWhile_eq_self_of_getLast?
  intro x hx
  have : x ≠ ' ' := by
    intro hsp
    exact h (hsp ▸ hx)
  simpa using this

/-- Lines that begin and end with a line that is not empty and have no
trailing space are their own normalization. -/
theorem normalized_eq_self (lines : List Str) (h0 : lines.head? ≠ some [])
    (hl : lines.getLast? ≠ some []) (hs : ∀ l ∈ lines, l.getLast? ≠ some ' ') :
    normalized lines = lines := by
  rw [normalized_eq]
  rw [dropWhile_eq_self_of_head? _ lines (fun x hx => by
    have : x ≠ [] := fun hx0 => h0 (hx0 ▸ hx)
    simpa using this)]
  rw [rdropWhile_eq_self_of_getLast? _ lines (fun x hx => by
    have : x ≠ [] := fun hx0 => hl (hx0 ▸ hx)
    simpa using this)]
  conv_rhs => rw [← List.map_id lines]
  apply List.map_congr_left
  intro l hlm
  exact TrimRight_eq_self l (hs l hlm)

theorem Join_Split (text : Str) (sep : Char) : Join (Split text sep) [sep] = text :=
  List.intercalate_splitOn text sep

/-! ## HTML escaping -/

theorem HTMLEscapeString_cons (c : Char) (s : Str) :
    HTMLEscapeString (c :: s) = htmlEscapeChar c ++ HTMLEscapeString s := by
  simp [HTMLEscapeString]

/-- What `htmlEscapeChar` writes: the replacement character, an entity, or the
character itself, which then is none of the five escaped ones. -/
theorem htmlEscapeChar_cases (c : Char) :
    htmlEscapeChar c = [Char.ofNat 0xFFFD] ∨ htmlEscapeChar c ∈ htmlEntities ∨
      (htmlEscapeChar c = [c] ∧ c ≠ '"' ∧ c ≠ '\'' ∧ c ≠ '&' ∧ c ≠ '<' ∧ c ≠ '>') := by
  unfold htmlEscapeChar
  split_ifs with h1 h2 h3 h4 h5 h6
  · exact Or.inl rfl
  · exact Or.inr (Or.inl (by decide))
  · exact Or.inr (Or.inl (by decide))
  · exact Or.inr (Or.inl (by decide))
  · exact Or.inr (Or.inl (by decide))
  · exact Or.inr (Or.inl (by decide))
  · exact Or.inr (Or.inr ⟨rfl, h2, h3, h4, h5, h6⟩)

theorem htmlEntities_chars :
    ∀ e ∈ htmlEntities, ∀ d ∈ e, d ≠ '<' ∧ d ≠ '>' ∧ d ≠ '"' ∧ d ≠ '\'' := by
  decide

theorem htmlEntities_amp :
    ∀ e ∈ htmlEntities, e.length ≤ 5 ∧ ∀ j, j < 5 → e[j]? = some '&' → j = 0 := by
  decide

theorem htmlEscapeChar_chars (c d : Char) (hd : d ∈ htmlEscapeChar c) :
    d ≠ '<' ∧ d ≠ '>' ∧ d ≠ '"' ∧ d ≠ '\'' := by
  rcases htmlEscapeChar_cases c with h | h | ⟨h, h2, h3, -, h5, h6⟩
  · rw [h] at hd
    have : d = Char.ofNat 0xFFFD := by simpa using hd
    subst this
    decide
  · exact htmlEntities_chars _ h d hd
  · rw [h] at hd
    have : d = c := by simpa using hd
    subst this
    exact ⟨h5, h6, h2, h3⟩

theorem htmlEscapeChar_amp (c : Char) (j : Nat) (h : (htmlEscapeChar c)[j]? = some '&') :
    j = 0 ∧ htmlEscapeChar c ∈ htmlEntities := by
  rcases htmlEscapeChar_cases c with h0 | h0 | ⟨h0, -, -, h4, -, -⟩
  · rw [h0] at h
    cases j with
    | zero => exact absurd h (by decide)
    | succ j => simp at h
  · obtain ⟨hlen, hj⟩ := htmlEntities_amp _ h0
    have hlt : j < (htmlEscapeChar c).length := by
      by_contra hc
      rw [List.getElem?_eq_none (by omega)] at h
      exact absurd h (by simp)
    exact ⟨hj j (by omega) h, h0⟩
  · rw [h0] at h
    cases j with
    | zero =>
      simp only [List.getElem?_cons_zero, Option.some.injEq] at h
      exact absurd h h4
    | succ j => simp at h

theorem HTMLEscapeString_chars (s : Str) (d : Char) (hd : d ∈ HTMLEscapeString s) :
    d ≠ '<' ∧ d ≠ '>' ∧ d ≠ '"' ∧ d ≠ '\'' := by
  unfold HTMLEscapeString at hd
  obtain ⟨chunk, hchunk, hdc⟩ := List.mem_flatten.mp hd
  obtain ⟨c, -, rfl⟩ := List.mem_map.mp hchunk
  exact htmlEscapeChar_chars c d hdc

theorem HTMLEscapeString_amp (s : Str) (i : Nat) (h : (HTMLEscapeString s)[i]? = some '&') :
    ∃ e ∈ htmlEntities, e <+: (HTMLEscapeString s).drop i := by
  induction s generalizing i with
  | nil => simp [HTMLEscapeString] at h
  | cons c s ih =>
    rw [HTMLEscapeString_cons] at h ⊢
    by_cases hi : i < (htmlEscapeChar c).length
    · rw [List.getElem?_append_left hi] at h
      obtain ⟨rfl, he⟩ := htmlEscapeChar_amp c i h
      exact ⟨_, he, by simp⟩
    · rw [List.getElem?_append_right (by omega)] at h
      obtain ⟨e, he, hpre⟩ := ih _ h
      refine ⟨e, he, ?_⟩
      rw [List.drop_append_eq_append_drop, List.drop_of_length_le (by omega), List.nil_append]
      exact hpre

/-! ## The recursions end -/

theorem leadingBlankStrippedFuel_eq (n : Nat) (lines : List Str) (h : lines.length < n) :
    leadingBlankStrippedFuel n lines = some (leadingBlankStripped lines) := by
  induction n generalizing lines with
  | zero => exact absurd h (Nat.not_lt_zero _)
  | succ n ih =>
    cases lines with
    | nil => rfl
    | cons a rest =>
      by_cases ha : a = []
      · have hr : rest.length < n := by simpa using h
        simp [leadingBlankStrippedFuel, leadingBlankStripped, ha, ih rest hr]
      · simp [leadingBlankStrippedFuel, leadingBlankStripped, ha]

theorem trailingBlankStrippedFuel_eq (n : Nat) (lines : List Str) (h : lines.length < n) :
    trailingBlankStrippedFuel n lines
      = some (lines.rdropWhile (fun l => decide (l = []))) := by
  induction n generalizing lines with
  | zero => exact absurd h (Nat.not_lt_zero _)
  | succ n ih =>
    rcases List.eq_nil_or_concat lines with hnil | ⟨init, last, hl⟩
    · subst hnil
      rfl
    · rw [List.concat_eq_append] at hl
      subst hl
      have hlen : (init ++ [last]).length - 1 = init.length := by simp
      have hget : (init ++ [last]).getD init.length [] = last := by
        simp [List.getD_eq_getElem?_getD]
      by_cases hb : last = []
      · have hi : init.length < n := by simpa using h
        simp only [trailingBlankStrippedFuel, hlen, hget]
        rw [List.rdropWhile_concat_pos (fun l => decide (l = [])) init last (by simpa using hb)]
        simp [hb, ih init hi]
      · simp only [trailingBlankStrippedFuel, hlen, hget]
        rw [List.rdropWhile_concat_neg (fun l => decide (l = [])) init last (by simpa using hb)]
        simp [hb]

/-! ## The loop of `emptyStringsStripped` without two empty neighbours -/

theorem emptyStringsStrippedStep_stripInv (x : Str) (hx : x ≠ []) (n : Nat)
    (orig : List Str) (i : Nat) (hi : i < n) (st : List Str × Nat)
    (h : StripInv x n orig i st) :
    ∃ st', emptyStringsStrippedStep i st = some st' ∧ StripInv x n orig (i + 1) st' := by
  obtain ⟨arr, len⟩ := st
  obtain ⟨hT, done, rest, htake, hdone, hle, heq, hchain, hlast, hfilter⟩ := h
  obtain ⟨st', hs, hT'⟩ := emptyStringsStrippedStep_tailInv x hx n i hi (arr, len) hT
  obtain ⟨hn, h1, h2, h3⟩ := hT
  simp only at hn h1 h2 h3 htake
  have hlen : done.length + rest.length = len := by
    have := congrArg List.length htake
    rw [List.length_take, List.length_append] at this
    omega
  refine ⟨st', hs, hT', ?_⟩
  cases rest with
  | nil =>
    simp only [List.length_nil, Nat.add_zero] at hlen
    have hget : arr.getD i [] = x := by
      rw [List.getD_eq_getElem?_getD, h3 i (by omega) hi]
      rfl
    have hstep : emptyStringsStrippedStep i (arr, len) = some (arr, len) := by
      unfold emptyStringsStrippedStep
      simp only [hget]
      rw [if_neg hx]
    rw [hstep] at hs
    cases hs
    exact ⟨done, [], htake, hdone, by omega, by simp, hchain, by simp, hfilter⟩
  | cons a rest' =>
    have hdi : done.length = i := heq (by simp)
    simp only [List.length_cons] at hlen
    have hget : arr.getD i [] = a := by
      have hta : (arr.take len)[i]? = some a := by
        rw [htake, List.getElem?_append_right (by omega)]
        simp [hdi]
      rw [List.getElem?_take, if_pos (by omega)] at hta
      rw [List.getD_eq_getElem?_getD, hta]
      rfl
    by_cases ha : a = []
    · subst ha
      cases rest' with
      | nil =>
        have := hlast (by simp)
        simp only [List.getLast?_singleton, Option.some.injEq] at this
        exact absurd this.symm hx
      | cons b rest'' =>
        simp only [List.length_cons] at hlen
        have hb : b ≠ [] := by
          intro hb0
          exact (List.chain'_cons.mp hchain).1 ⟨rfl, hb0⟩
        have hstep : emptyStringsStrippedStep i (arr, len)
            = some (arr.take i ++ (arr.take len).drop (i + 1) ++ arr.drop (len - 1),
                len - 1) := by
          unfold emptyStringsStrippedStep
          simp only [hget]
          rw [if_pos trivial, if_pos ⟨by omega, by omega⟩]
        rw [hstep] at hs
        cases hs
        have e1 : arr.take i = done := by
          have : (arr.take len).take i = done := by
            rw [htake]
            exact List.take_left' hdi
          rw [List.take_take, Nat.min_eq_left (by omega)] at this
          exact this
        have e2 : (arr.take len).drop (i + 1) = b :: rest'' := by
          rw [htake]
          have : done ++ [] :: b :: rest'' = (done ++ [[]]) ++ b :: rest'' := by simp
          rw [this]
          exact List.drop_left' (by simp [hdi])
        refine ⟨done ++ [b], rest'', ?_, ?_, ?_, ?_, ?_, ?_, ?_⟩
        · show (arr.take i ++ (arr.take len).drop (i + 1) ++ arr.drop (len - 1)).take (len - 1)
            = done ++ [b] ++ rest''
          rw [e1, e2]
          have : done ++ b :: rest'' = done ++ [b] ++ rest'' := by simp
          rw [this]
          exact List.take_left' (by simp; omega)
        · intro d hd
          rcases List.mem_append.mp hd with hd | hd
          · exact hdone d hd
          · have : d = b := by simpa using hd
            exact this ▸ hb
        · simp
          omega
        · intro _
          simp
          omega
        · exact (List.chain'_cons.mp hchain).2.tail
        · intro hne
          have := hlast (by simp)
          cases rest'' with
          | nil => exact absurd rfl hne
          | cons c rest3 =>
            simpa [List.getLast?_cons_cons] using this
        · rw [← hfilter]
          simp [List.filter_cons, hb]
    · have hstep : emptyStringsStrippedStep i (arr, len) = some (arr, len) := by
        unfold emptyStringsStrippedStep
        simp only [hget]
        rw [if_neg ha]
      rw [hstep] at hs
      cases hs
      refine ⟨done ++ [a], rest', ?_, ?_, ?_, ?_, ?_, ?_, ?_⟩
      · show arr.take len = done ++ [a] ++ rest'
        rw [htake]
        simp
      · intro d hd
        rcases List.mem_append.mp hd with hd | hd
        · exact hdone d hd
        · have : d = a := by simpa using hd
          exact this ▸ ha
      · simp
        omega
      · intro _
        simp
        omega
      · exact hchain.tail
      · intro hne
        have := hlast (by simp)
        cases rest' with
        | nil => exact absurd rfl hne
        | cons c rest3 =>
          simpa [List.getLast?_cons_cons] using this
      · rw [← hfilter]
        simp

theorem emptyStringsStrippedLoop_stripInv (x : Str) (hx : x ≠ []) (n : Nat)
    (orig : List Str) (k i : Nat) (hik : i + k ≤ n) (st : List Str × Nat)
    (h : StripInv x n orig i st) :
    ∃ st', emptyStringsStrippedLoop (List.range' i k) st = some st' ∧
      StripInv x n orig (i + k) st' := by
  induction k generalizing i st with
  | zero => exact ⟨st, rfl, h⟩
  | succ k ih =>
    obtain ⟨st1, hs, hinv⟩ := emptyStringsStrippedStep_stripInv x hx n orig i (by omega) st h
    obtain ⟨st2, hl, hinv2⟩ := ih (i + 1) (by omega) st1 hinv
    refine ⟨st2, ?_, ?_⟩
    · rw [List.range'_succ]
      simp only [emptyStringsStrippedLoop, hs]
      exact hl
    · have e : i + (k + 1) = i + 1 + k := by omega
      rw [e]
      exact hinv2

/-- On a slice that ends with a string that is not empty and has no two empty
neighbours `emptyStringsStripped` returns the strings that are not empty. -/
theorem emptyStringsStripped_eq_filter (strs : List Str) (x : Str)
    (hlast : strs.getLast? = some x) (hx : x ≠ [])
    (hchain : List.Chain' (fun a b : Str => ¬ (a = [] ∧ b = [])) strs) :
    emptyStringsStripped strs = some (strs.filter (fun s => decide (s ≠ []))) := by
  have hne : strs ≠ [] := by
    intro h
    simp [h] at hlast
  have hpos : 0 < strs.length := List.length_pos.mpr hne
  have hT : TailInv x strs.length (strs, strs.length) := by
    refine ⟨rfl, hpos, Nat.le_refl _, ?_⟩
    intro j hj hjn
    simp only at hj
    have : j = strs.length - 1 := by omega
    subst this
    rw [← hlast, List.getLast?_eq_getElem?]
  have hinv : StripInv x strs.length strs 0 (strs, strs.length) :=
    ⟨hT, [], strs, by simp, by simp, Nat.le_refl _, fun _ => rfl, hchain,
      fun _ => hlast, rfl⟩
  obtain ⟨⟨arr, len⟩, hl, hT', done, rest, htake, hdone, hle, heq, -, -, hfilter⟩ :=
    emptyStringsStrippedLoop_stripInv x hx strs.length strs strs.length 0 (by omega) _ hinv
  obtain ⟨hn, h1, h2, -⟩ := hT'
  simp only at hn h1 h2 htake
  have hlen : done.length + rest.length = len := by
    have := congrArg List.length htake
    rw [List.length_take, List.length_append] at this
    omega
  have hrest : rest = [] := by
    by_contra hr
    have h0 := heq hr
    have : 0 < rest.length := List.length_pos.mpr hr
    omega
  subst hrest
  rw [List.append_nil] at htake hfilter
  have hfd : done.filter (fun s => decide (s ≠ [])) = done := by
    apply List.filter_eq_self.mpr
    intro d hd
    simpa using hdone d hd
  simp only [emptyStringsStripped, List.range_eq_range', hl, htake]
  rw [← hfilter, hfd]

/-! ## Empty fragments of a split -/

theorem Split_head?_nil (s : Str) (h : (Split s ' ').head? = some []) :
    s = [] ∨ ∃ t, s = ' ' :: t := by
  cases s with
  | nil => exact Or.inl rfl
  | cons c t =>
    by_cases hc : c = ' '
    · exact Or.inr ⟨t, by rw [hc]⟩
    · rw [Split_cons, if_neg hc] at h
      cases hsp : Split t ' ' with
      | nil => exact absurd hsp (Split_ne_nil _ _)
      | cons a b =>
        rw [hsp] at h
        simp at h

/-- Two empty neighbours among the fragments of a text that does not end
with a space come from two spaces at its start or from three spaces in a
row. -/
theorem Split_chain (s : Str) (hs : s ≠ []) (hl : s.getLast? ≠ some ' ')
    (h3 : ¬ [' ', ' ', ' '] <:+: s) :
    List.Chain' (fun a b : Str => ¬ (a = [] ∧ b = [])) (Split s ' ').tail ∧
      (¬ [' ', ' '] <+: s →
        List.Chain' (fun a b : Str => ¬ (a = [] ∧ b = [])) (Split s ' ')) := by
  induction s with
  | nil => exact absurd rfl hs
  | cons c t ih =>
    cases t with
    | nil =>
      have hc : c ≠ ' ' := by
        intro h
        apply hl
        simp [h]
      rw [Split_cons, if_neg hc]
      simp [Split, List.splitOn]
    | cons d t' =>
      have hl' : (d :: t').getLast? ≠ some ' ' := by
        simpa [List.getLast?_cons_cons] using hl
      have h3' : ¬ [' ', ' ', ' '] <:+: d :: t' := fun h => h3 (List.infix_cons h)
      obtain ⟨ih1, ih2⟩ := ih (by simp) hl' h3'
      by_cases hc : c = ' '
      · subst hc
        rw [Split_cons, if_pos rfl]
        have h2' : ¬ [' ', ' '] <+: d :: t' := by
          intro h
          apply h3
          exact (List.cons_prefix_cons.mpr ⟨rfl, h⟩).isInfix
        have hch := ih2 h2'
        refine ⟨hch, ?_⟩
        intro h2
        apply hch.cons'
        intro y hy
        rintro ⟨-, hy0⟩
        subst hy0
        rcases Split_head?_nil _ hy with h0 | ⟨t2, h0⟩
        · exact absurd h0 (by simp)
        · apply h2
          rw [h0]
          exact List.cons_prefix_cons.mpr ⟨rfl, List.cons_prefix_cons.mpr ⟨rfl, List.nil_prefix⟩⟩
      · rw [Split_cons, if_neg hc]
        cases hsp : Split (d :: t') ' ' with
        | nil => exact absurd hsp (Split_ne_nil _ _)
        | cons a b =>
          rw [hsp] at ih1
          simp only [List.tail_cons] at ih1
          simp only [List.modifyHead_cons, List.tail_cons]
          refine ⟨ih1, fun _ => ?_⟩
          apply ih1.cons'
          intro y _
          rintro ⟨hca, -⟩
          exact absurd hca (by simp)

/-! ## When `emptyStringsStripped` slices out of range -/

theorem emptyStringsStrippedLoop_append (a b : List Nat) (st : List Str × Nat) :
    emptyStringsStrippedLoop (a ++ b) st
      = (emptyStringsStrippedLoop a st).bind (emptyStringsStrippedLoop b) := by
  induction a generalizing st with
  | nil => rfl
  | cons i rest ih =>
    simp only [List.cons_append, emptyStringsStrippedLoop]
    cases emptyStringsStrippedStep i st with
    | none => rfl
    | some st' => exact ih st'

/-- Iterations at indices that hold strings which are not empty change
nothing. -/
theorem emptyStringsStrippedLoop_noop (idxs : List Nat) (arr : List Str) (len : Nat)
    (h : ∀ i ∈ idxs, arr.getD i [] ≠ []) :
    emptyStringsStrippedLoop idxs (arr, len) = some (arr, len) := by
  induction idxs with
  | nil => rfl
  | cons i rest ih =>
    have hi := h i (List.mem_cons_self _ _)
    have hstep : emptyStringsStrippedStep i (arr, len) = some (arr, len) := by
      unfold emptyStringsStrippedStep
      simp only
      rw [if_neg hi]
    simp only [emptyStringsStrippedLoop, hstep]
    exact ih (fun k hk => h k (List.mem_cons_of_mem _ hk))

/-- One iteration under `StaleInv`: behind the slice variable it slices out of
range, inside it the invariant is kept. -/
theorem emptyStringsStrippedStep_staleInv (n i : Nat) (hi : i < n) (st : List Str × Nat)
    (h : StaleInv n i st) :
    emptyStringsStrippedStep i st = none ∨
      ∃ st', emptyStringsStrippedStep i st = some st' ∧ StaleInv n (i + 1) st' := by
  obtain ⟨arr, len⟩ := st
  obtain ⟨hn, hlt, hstale, hin⟩ := h
  simp only at hn hlt hstale hin
  unfold emptyStringsStrippedStep
  simp only
  by_cases hil : i < len
  · by_cases he : arr.getD i [] = []
    · right
      rw [if_pos he, if_pos ⟨by omega, by omega⟩]
      refine ⟨_, rfl, ?_, ?_, ?_, ?_⟩
      · simp only
        rw [removed_length arr len i (by omega) (by omega)]
        exact hn
      · simp only
        omega
      · intro j hj hjn
        simp only at hj ⊢
        rw [removed_getElem? arr len i j (by omega) (by omega), if_neg (by omega),
          if_neg (by omega)]
        by_cases hjl : j = len - 1
        · rw [hjl]
          exact hin hil
        · exact hstale j (by omega) hjn
      · intro hi1
        simp only at hi1 ⊢
        rw [removed_getElem? arr len i (len - 1 - 1) (by omega) (by omega),
          if_neg (by omega), if_pos (by omega)]
        have e : len - 1 - 1 + 1 = len - 1 := by omega
        rw [e]
        exact hin hil
    · right
      rw [if_neg he]
      exact ⟨_, rfl, hn, hlt, hstale, fun _ => hin hil⟩
  · left
    have he : arr.getD i [] = [] := by
      rw [List.getD_eq_getElem?_getD, hstale i (by omega) hi]
      rfl
    rw [if_pos he, if_neg (by omega)]

theorem emptyStringsStrippedLoop_staleInv (n k i : Nat) (hk : 0 < k) (hik : i + k = n)
    (st : List Str × Nat) (h : StaleInv n i st) :
    emptyStringsStrippedLoop (List.range' i k) st = none := by
  induction k generalizing i st with
  | zero => exact absurd hk (Nat.lt_irrefl _)
  | succ k ih =>
    rw [List.range'_succ]
    simp only [emptyStringsStrippedLoop]
    rcases emptyStringsStrippedStep_staleInv n i (by omega) st h with hs | ⟨st', hs, hinv⟩
    · rw [hs]
    · rw [hs]
      simp only
      by_cases hk0 : k = 0
      · exfalso
        obtain ⟨-, hlt, hstale, -⟩ := h
        subst hk0
        obtain ⟨arr, len⟩ := st
        simp only at hlt hstale
        have he : arr.getD i [] = [] := by
          rw [List.getD_eq_getElem?_getD, hstale i (by omega) (by omega)]
          rfl
        unfold emptyStringsStrippedStep at hs
        simp only at hs
        rw [if_pos he, if_neg (by omega)] at hs
        exact absurd hs (by simp)
      · exact ih (i + 1) (by omega) (by omega) st' hinv

/-- A slice that ends with an empty string and has an empty string before it:
`emptyStringsStripped` slices out of range. -/
theorem emptyStringsStripped_eq_none (strs : List Str) (i0 : Nat)
    (hpre : ∀ i, i < i0 → strs.getD i [] ≠ []) (h0 : strs.getD i0 [] = [])
    (hi0 : i0 + 2 ≤ strs.length) (hlast : strs.getLast? = some []) :
    emptyStringsStripped strs = none := by
  have hlast' : strs[strs.length - 1]? = some [] := by
    rw [← List.getLast?_eq_getElem?]
    exact hlast
  have hrange : List.range strs.length
      = List.range' 0 i0 ++ List.range' i0 (strs.length - i0) := by
    rw [List.range_eq_range']
    have := List.range'_append_1 0 i0 (strs.length - i0)
    rw [Nat.zero_add] at this
    rw [this]
    congr 1
    omega
  have hsplit : List.range' i0 (strs.length - i0)
      = i0 :: List.range' (i0 + 1) (strs.length - i0 - 1) := by
    have e : strs.length - i0 = (strs.length - i0 - 1) + 1 := by omega
    rw [e, List.range'_succ]
    simp
  have hnoop : emptyStringsStrippedLoop (List.range' 0 i0) (strs, strs.length)
      = some (strs, strs.length) := by
    apply emptyStringsStrippedLoop_noop
    intro i hi
    have : i < i0 := by
      have := List.mem_range'_1.mp hi
      omega
    exact hpre i this
  have hstep : emptyStringsStrippedStep i0 (strs, strs.length)
      = some (strs.take i0 ++ (strs.take strs.length).drop (i0 + 1)
          ++ strs.drop (strs.length - 1), strs.length - 1) := by
    unfold emptyStringsStrippedStep
    simp only
    rw [if_pos h0, if_pos ⟨by omega, by omega⟩]
  have hinv : StaleInv strs.length (i0 + 1)
      (strs.take i0 ++ (strs.take strs.length).drop (i0 + 1)
          ++ strs.drop (strs.length - 1), strs.length - 1) := by
    refine ⟨removed_length strs strs.length i0 (by omega) (Nat.le_refl _), by
      simp only
      omega, ?_, ?_⟩
    · intro j hj hjn
      simp only at hj ⊢
      rw [removed_getElem? strs strs.length i0 j (by omega) (Nat.le_refl _),
        if_neg (by omega), if_neg (by omega)]
      have : j = strs.length - 1 := by omega
      rw [this]
      exact hlast'
    · intro hlt
      simp only at hlt ⊢
      rw [removed_getElem? strs strs.length i0 (strs.length - 1 - 1) (by omega)
        (Nat.le_refl _), if_neg (by omega), if_pos (by omega)]
      have e : strs.length - 1 - 1 + 1 = strs.length - 1 := by omega
      rw [e]
      exact hlast'
  have hrest := emptyStringsStrippedLoop_staleInv strs.length (strs.length - i0 - 1) (i0 + 1)
    (by omega) (by omega) _ hinv
  unfold emptyStringsStripped
  rw [hrange, emptyStringsStrippedLoop_append, hnoop, hsplit]
  simp only [Option.some_bind, emptyStringsStrippedLoop, hstep, hrest]

/-- A slice whose only empty string, if any, is the last one:
`emptyStringsStripped` returns. -/
theorem emptyStringsStripped_of_no_empty_before (strs : List Str)
    (h : ∀ i, i + 2 ≤ strs.length → strs.getD i [] ≠ []) :
    ∃ r, emptyStringsStripped strs = some r := by
  cases hn : strs.length with
  | zero =>
    have : strs = [] := List.length_eq_zero.mp hn
    subst this
    exact ⟨[], by decide⟩
  | succ m =>
    have hrange : List.range strs.length = List.range' 0 m ++ [m] := by
      rw [List.range_eq_range', hn, List.range'_concat]
      simp
    have hnoop : emptyStringsStrippedLoop (List.range' 0 m) (strs, strs.length)
        = some (strs, strs.length) := by
      apply emptyStringsStrippedLoop_noop
      intro i hi
      have := List.mem_range'_1.mp hi
      exact h i (by omega)
    have hstep : ∃ st', emptyStringsStrippedStep m (strs, strs.length) = some st' := by
      unfold emptyStringsStrippedStep
      simp only
      by_cases he : strs.getD m [] = []
      · rw [if_pos he, if_pos ⟨by omega, by omega⟩]
        exact ⟨_, rfl⟩
      · rw [if_neg he]
        exact ⟨_, rfl⟩
    obtain ⟨⟨arr, len⟩, hs⟩ := hstep
    refine ⟨arr.take len, ?_⟩
    unfold emptyStringsStripped
    rw [hrange, emptyStringsStrippedLoop_append, hnoop]
    simp only [Option.some_bind, emptyStringsStrippedLoop, hs]

/-! ## Claims -/

/-- C1: with `lines` the pieces of `text` between its line feeds, `prepared`
returns `lines[0]` as the title and `preparedBody (lines[2:])` as body and
tags when there are at least two lines, `lines[0]` is not empty and `lines[1]`
is empty; in every other case, a text without a line feed among them, it
returns the empty title and `preparedBody lines`. -/
theorem prepared_title_rule (text : Str) :
    ((2 ≤ (Split text '\n').length ∧
        (∃ l0, (Split text '\n')[0]? = some l0 ∧ l0 ≠ []) ∧
        (Split text '\n')[1]? = some []) →
      ∃ title body tags, (Split text '\n')[0]? = some title ∧
        preparedBody ((Split text '\n').drop 2) = some (body, tags) ∧
        prepared text = some (title, body, tags)) ∧
    (¬ (2 ≤ (Split text '\n').length ∧
        (∃ l0, (Split text '\n')[0]? = some l0 ∧ l0 ≠ []) ∧
        (Split text '\n')[1]? = some []) →
      ∃ body tags, preparedBody (Split text '\n') = some (body, tags) ∧
        prepared text = some ([], body, tags)) ∧
    ('\n' ∉ text →
      ∃ body tags, preparedBody [text] = some (body, tags) ∧
        prepared text = some ([], body, tags)) := by
  have key := prepared_branches text
  refine ⟨(key _ rfl).1, (key _ rfl).2, ?_⟩
  intro hn
  have hs := Split_eq_singleton text '\n' hn
  have := (key _ rfl).2 (by rw [hs]; simp)
  rw [hs] at this
  exact this

/-- C1, at a text with a title, at a text of two lines without a blank one,
and at a text without a line feed. -/
theorem prepared_title_rule_witness :
    (∃ title body tags, (Split "title\n\nbody".toList '\n')[0]? = some title ∧
        preparedBody ((Split "title\n\nbody".toList '\n').drop 2) = some (body, tags) ∧
        prepared "title\n\nbody".toList = some (title, body, tags)) ∧
      (∃ body tags, preparedBody (Split "two\nlines".toList '\n') = some (body, tags) ∧
        prepared "two\nlines".toList = some ([], body, tags)) ∧
      (∃ body tags, preparedBody ["one line".toList] = some (body, tags) ∧
        prepared "one line".toList = some ([], body, tags)) :=
  ⟨(prepared_title_rule "title\n\nbody".toList).1 (by decide),
    (prepared_title_rule "two\nlines".toList).2.1 (by decide),
    (prepared_title_rule "one line".toList).2.2 (by decide)⟩

/-- C2: with `N` the normalized line sequence, `preparedBody` returns a tag
list and `N` without its last two lines when `N` has at least two lines, its
last line starts with `Tags: ` and the line before it is empty; in every other
case it returns no tag list and `N` itself. -/
theorem preparedBody_tag_rule (lines : List Str) :
    ((2 ≤ (normalized lines).length ∧
        (∃ last, (normalized lines).getLast? = some last ∧ "Tags: ".toList <+: last) ∧
        (normalized lines)[(normalized lines).length - 2]? = some []) →
      ∃ tags, preparedBody lines
        = some ((normalized lines).take ((normalized lines).length - 2), some tags)) ∧
    (¬ (2 ≤ (normalized lines).length ∧
        (∃ last, (normalized lines).getLast? = some last ∧ "Tags: ".toList <+: last) ∧
        (normalized lines)[(normalized lines).length - 2]? = some []) →
      preparedBody lines = some (normalized lines, none)) := by
  constructor
  · rintro ⟨h2, ⟨last, hlast, hp⟩, hb⟩
    rw [List.getLast?_eq_getElem?] at hlast
    obtain ⟨tags, _, _, _, _, hr⟩ := preparedBody_tagLine lines last h2 hlast hp hb
    exact ⟨tags, hr⟩
  · intro h
    apply preparedBody_noTagLine
    intro hc
    apply h
    rw [List.getLast?_eq_getElem?]
    exact hc

/-- C2, at a tag line that follows a blank line and at one that no blank line
precedes. -/
theorem preparedBody_tag_rule_witness :
    (∃ tags, preparedBody [[], "paragraph".toList, [], "Tags: one-tag".toList]
        = some ((normalized [[], "paragraph".toList, [], "Tags: one-tag".toList]).take
            ((normalized [[], "paragraph".toList, [], "Tags: one-tag".toList]).length - 2),
          some tags)) ∧
      preparedBody [[], "paragraph".toList, "Tags: not following".toList]
        = some (normalized [[], "paragraph".toList, "Tags: not following".toList], none) :=
  ⟨(preparedBody_tag_rule [[], "paragraph".toList, [], "Tags: one-tag".toList]).1
      ⟨by decide, ⟨"Tags: one-tag".toList, by decide, by decide⟩, by decide⟩,
    (preparedBody_tag_rule [[], "paragraph".toList, "Tags: not following".toList]).2
      (by decide)⟩

/-- C3: on the lines `x`, the empty line and `Tags:` followed by three spaces
and `a`, the tag list `preparedBody` returns begins with the empty string,
while the fragments that are not empty are `a` alone. -/
theorem preparedBody_keeps_empty_tag :
    preparedBody ["x".toList, [], "Tags:   a".toList]
        = some (["x".toList], some [[], "a".toList]) ∧
      (Split ("Tags:   a".toList.drop "Tags: ".toList.length) ' ').filter
        (fun t => decide (t ≠ [])) = ["a".toList] := by
  decide

/-- C4: on a text whose tag line follows a blank line and nothing else, and on
one whose tag line follows the title and its blank line, `prepared` returns no
tag list and keeps the tag line in the body. -/
theorem prepared_tags_without_body :
    prepared "\nTags: a".toList = some ([], ["Tags: a".toList], none) ∧
      prepared "title\n\nTags: a".toList
        = some ("title".toList, ["Tags: a".toList], none) := by
  decide

/-- C7, as the claim states it: the body line `a` followed by a tab keeps its
tab. -/
theorem preparedBody_keeps_trailing_tab :
    preparedBody ["a\t".toList] = some (["a\t".toList], none) ∧
      "a\t".toList.getLast? = some '\t' := by
  decide

/-- C7, amended: `preparedBody` returns on every line sequence and no line of
the body it returns ends with a space. -/
theorem preparedBody_body_no_trailing_space (lines : List Str) :
    ∃ body tags, preparedBody lines = some (body, tags) ∧
      ∀ l ∈ body, l.getLast? ≠ some ' ' := by
  obtain ⟨body, tags, k, h, hb⟩ := preparedBody_body_take lines
  refine ⟨body, tags, h, ?_⟩
  intro l hl
  rw [hb] at hl
  exact normalized_getLast? lines l (List.mem_of_mem_take hl)

/-- C10: `tagsToHTML` writes the opening of the container and the label, one
anchor line per tag in order, with the escaped tag as link target and as text,
and the closing of the container; for the empty list the container holds no
anchor. -/
theorem tagsToHTML_output (w : Str) (tags : List Str) :
    tagsToHTML w tags
        = w ++ "<div class=\"taglist\">\n<strong>Tags:</strong>\n".toList ++
          (tags.map (fun tag => "<a href=\"/tag/".toList ++ HTMLEscapeString tag ++
            "\" rel=\"tag\">".toList ++ HTMLEscapeString tag ++ "</a>\n".toList)).flatten ++
          "</div>\n".toList ∧
      tagsToHTML w []
        = w ++ "<div class=\"taglist\">\n<strong>Tags:</strong>\n</div>\n".toList := by
  constructor
  · rw [tagsToHTML_eq]
    simp [List.append_assoc]
  · rw [tagsToHTML_eq]
    rfl

/-- C9: with `(title, body, tags)` what `prepared` returns for the text,
`ToHTMLString` returns the heading of the escaped title when the title is not
empty, then what the body formatter writes for the body lines joined by line
feeds, then the tag container when a tag list is present. -/
theorem ToHTMLString_output (docToHTML : Str → Words → Str) (text : Str) (words : Words) :
    ∃ title body tags, prepared text = some (title, body, tags) ∧
      ToHTMLString docToHTML text words
        = some ((if title ≠ [] then "<h2>".toList ++ HTMLEscapeString title ++ "</h2>\n".toList
              else []) ++
            docToHTML (Join body "\n".toList) words ++
            (match tags with
              | some tags => tagsToHTML [] tags
              | none => [])) := by
  obtain ⟨title, body, tags, hp⟩ := prepared_total text
  refine ⟨title, body, tags, hp, ?_⟩
  unfold ToHTMLString ToHTML
  simp only [hp, Option.bind_eq_bind, Option.some_bind]
  cases tags with
  | none =>
    by_cases ht : title = []
    · simp [ht]
    · simp [ht, titleToHTML]
  | some tags =>
    by_cases ht : title = []
    · simp only [ht, ne_eq, not_true_eq_false, if_false, Option.pure_def]
      rw [tagsToHTML_append]
      rfl
    · simp only [ht, ne_eq, not_false_eq_true, if_true, Option.pure_def]
      rw [tagsToHTML_append]
      simp [titleToHTML]

/-- C5, as the claim states it: one line that is a single space is
normalized to one empty line, and normalizing that again gives no line. -/
theorem normalized_twice_differs :
    normalized [" ".toList] = [[]] ∧
      normalized (normalized [" ".toList]) ≠ normalized [" ".toList] := by
  decide

/-- C5, amended: normalizing twice gives what normalizing once gives exactly
when the first and the last line left by the two blank-line passes each have a
character that is not a space. -/
theorem normalized_idempotent (lines : List Str) :
    normalized (normalized lines) = normalized lines ↔
      (∀ l, (trailingBlankStripped (leadingBlankStripped lines)).head? = some l →
        ∃ c ∈ l, c ≠ ' ') ∧
      (∀ l, (trailingBlankStripped (leadingBlankStripped lines)).getLast? = some l →
        ∃ c ∈ l, c ≠ ' ') := by
  constructor
  · intro hid
    constructor
    · intro l hl
      apply (TrimRight_ne_nil_iff l).mp
      apply normalized_fixed_head? lines hid
      rw [normalized_eq_map, List.head?_map, hl]
      rfl
    · intro l hl
      apply (TrimRight_ne_nil_iff l).mp
      apply normalized_fixed_getLast? lines hid
      rw [normalized_eq_map, List.getLast?_map, hl]
      rfl
  · rintro ⟨h1, h2⟩
    have hhead := normalized_head?_ne_nil lines h1
    have hlast := normalized_getLast?_ne_nil lines h2
    have htrim : (normalized lines).map (fun l => TrimRight l [' ']) = normalized lines := by
      rw [normalized_eq, List.map_map]
      apply List.map_congr_left
      intro l _
      exact TrimRight_idempotent l
    generalize normalized lines = T at hhead hlast htrim
    rw [normalized_eq]
    rw [dropWhile_eq_self_of_head? _ T (fun x hx => by simpa using hhead x hx)]
    rw [rdropWhile_eq_self_of_getLast? _ T (fun x hx => by simpa using hlast x hx)]
    exact htrim

/-- C5, amended, at lines with blank lines at both ends, a trailing space and
a line of one space in the middle. -/
theorem normalized_idempotent_witness :
    normalized (normalized [[], "a ".toList, " ".toList, " b".toList, []])
        = normalized [[], "a ".toList, " ".toList, " b".toList, []] ∧
      normalized [[], "a ".toList, " ".toList, " b".toList, []]
        = ["a".toList, [], " b".toList] :=
  ⟨(normalized_idempotent [[], "a ".toList, " ".toList, " b".toList, []]).mpr
      ⟨fun l hl => by
          have h : (trailingBlankStripped (leadingBlankStripped
              [[], "a ".toList, " ".toList, " b".toList, []])).head? = some "a ".toList := by
            decide
          rw [h] at hl
          cases hl
          exact ⟨'a', by decide, by decide⟩,
        fun l hl => by
          have h : (trailingBlankStripped (leadingBlankStripped
              [[], "a ".toList, " ".toList, " b".toList, []])).getLast?
                = some " b".toList := by
            decide
          rw [h] at hl
          cases hl
          exact ⟨'b', by decide, by decide⟩⟩,
    by decide⟩

/-- C6, as the claim states it: a line of one space leaves a body of one
empty line, and two blank lines before the tag line leave a body that ends
with an empty line. -/
theorem preparedBody_body_blank_ends :
    preparedBody [" ".toList] = some ([[]], none) ∧
      preparedBody ["a".toList, [], [], "Tags: x".toList]
        = some (["a".toList, []], some ["x".toList]) := by
  decide

/-- C6, amended: with `M` the lines left by the two blank-line passes, the body
`preparedBody` returns has the length of `M`, less two when a tag list is
returned, and it is empty or begins and ends with a line that is not empty
exactly when it is empty or the first line of `M` and the line of `M` at the
last position of the body each have a character that is not a space. -/
theorem preparedBody_body_ends (lines : List Str) :
    ∃ body tags, preparedBody lines = some (body, tags) ∧
      body.length
        = (if tags.isSome then (trailingBlankStripped (leadingBlankStripped lines)).length - 2
            else (trailingBlankStripped (leadingBlankStripped lines)).length) ∧
      ((body = [] ∨ ∃ first last, body.head? = some first ∧ first ≠ [] ∧
          body.getLast? = some last ∧ last ≠ []) ↔
        (body = [] ∨ ∃ f l,
          (trailingBlankStripped (leadingBlankStripped lines)).head? = some f ∧
          (∃ c ∈ f, c ≠ ' ') ∧
          (trailingBlankStripped (leadingBlankStripped lines))[body.length - 1]? = some l ∧
          ∃ c ∈ l, c ≠ ' ')) := by
  obtain ⟨body, tags, hp, hc⟩ := preparedBody_cases lines
  refine ⟨body, tags, hp, ?_, ?_⟩
  · rcases hc with ⟨hb, ht⟩ | ⟨hb, ht⟩
    · rw [ht, hb, normalized_eq_map]
      simp
    · rw [ht, hb, normalized_eq_map]
      simp
  · have hbody : ∃ K, body
        = ((trailingBlankStripped (leadingBlankStripped lines)).take K).map
            (fun l => TrimRight l [' ']) ∧
        K ≤ (trailingBlankStripped (leadingBlankStripped lines)).length := by
      rcases hc with ⟨hb, -⟩ | ⟨hb, -⟩
      · exact ⟨_, by rw [hb, normalized_eq_map, List.take_length], Nat.le_refl _⟩
      · refine ⟨(trailingBlankStripped (leadingBlankStripped lines)).length - 2, ?_,
          Nat.sub_le _ _⟩
        rw [hb, normalized_eq_map, List.length_map, List.map_take]
    obtain ⟨K, hK, hKle⟩ := hbody
    generalize trailingBlankStripped (leadingBlankStripped lines) = M at hK hKle ⊢
    have hlen : body.length = K := by
      rw [hK]
      simp
      omega
    have hget : ∀ i, i < K → body[i]? = (M[i]?).map (fun l => TrimRight l [' ']) := by
      intro i hi
      rw [hK, List.getElem?_map, List.getElem?_take, if_pos hi]
    by_cases hnil : body = []
    · exact ⟨fun _ => Or.inl hnil, fun _ => Or.inl hnil⟩
    · have hpos : 0 < K := by
        rw [← hlen]
        exact List.length_pos.mpr hnil
      have hhead : body.head? = (M.head?).map (fun l => TrimRight l [' ']) := by
        rw [List.head?_eq_getElem?, List.head?_eq_getElem?]
        exact hget 0 hpos
      have hlast : body.getLast? = (M[body.length - 1]?).map (fun l => TrimRight l [' ']) := by
        rw [List.getLast?_eq_getElem?]
        exact hget _ (by omega)
      constructor
      · rintro (h | ⟨first, last, hf, hfne, hl, hlne⟩)
        · exact absurd h hnil
        · rw [hhead] at hf
          rw [hlast] at hl
          obtain ⟨f, hf', rfl⟩ := Option.map_eq_some'.mp hf
          obtain ⟨l, hl', rfl⟩ := Option.map_eq_some'.mp hl
          exact Or.inr ⟨f, l, hf', (TrimRight_ne_nil_iff f).mp hfne, hl',
            (TrimRight_ne_nil_iff l).mp hlne⟩
      · rintro (h | ⟨f, l, hf, hfc, hl, hlc⟩)
        · exact absurd h hnil
        · refine Or.inr ⟨TrimRight f [' '], TrimRight l [' '], ?_,
            (TrimRight_ne_nil_iff f).mpr hfc, ?_, (TrimRight_ne_nil_iff l).mpr hlc⟩
          · rw [hhead, hf]
            rfl
          · rw [hlast, hl]
            rfl

/-- C6, amended, at a tag line after one blank line: the body is the line `a`
alone. -/
theorem preparedBody_body_ends_witness :
    preparedBody ["a ".toList, [], "Tags: x".toList]
        = some (["a".toList], some ["x".toList]) ∧
      ∃ body tags, preparedBody ["a ".toList, [], "Tags: x".toList] = some (body, tags) ∧
        body.length
          = (if tags.isSome then
              (trailingBlankStripped (leadingBlankStripped
                ["a ".toList, [], "Tags: x".toList])).length - 2
            else (trailingBlankStripped (leadingBlankStripped
                ["a ".toList, [], "Tags: x".toList])).length) ∧
        ((body = [] ∨ ∃ first last, body.head? = some first ∧ first ≠ [] ∧
            body.getLast? = some last ∧ last ≠ []) ↔
          (body = [] ∨ ∃ f l,
            (trailingBlankStripped (leadingBlankStripped
              ["a ".toList, [], "Tags: x".toList])).head? = some f ∧
            (∃ c ∈ f, c ≠ ' ') ∧
            (trailingBlankStripped (leadingBlankStripped
              ["a ".toList, [], "Tags: x".toList]))[body.length - 1]? = some l ∧
            ∃ c ∈ l, c ≠ ' ')) :=
  ⟨by decide, preparedBody_body_ends ["a ".toList, [], "Tags: x".toList]⟩

/-- C8: the body `preparedBody` returns is a contiguous run of the input lines
in their order, each with its trailing spaces removed. -/
theorem preparedBody_body_contiguous (lines : List Str) :
    ∃ body tags a b, preparedBody lines = some (body, tags) ∧
      a ≤ b ∧ b ≤ lines.length ∧ body.length = b - a ∧
      ∀ i, i < b - a → body[i]? = (lines[a + i]?).map (fun l => TrimRight l [' ']) := by
  obtain ⟨body, tags, k, hp, hb⟩ := preparedBody_body_take lines
  obtain ⟨a, m, ham, hM⟩ := blankStripped_eq_take_drop lines
  rw [normalized_eq, hM, ← List.map_take, List.take_take] at hb
  have hlen : body.length = min k m := by
    rw [hb]
    simp
    omega
  refine ⟨body, tags, a, a + min k m, hp, by omega, by omega, by omega, ?_⟩
  intro i hi
  have hi' : i < min k m := by omega
  rw [hb, List.getElem?_map, List.getElem?_take, if_pos hi', List.getElem?_drop]

/-- C12: `prepared` returns on every text, so no index or slice expression of
`prepared`, `isTitle`, `preparedBody` or of `emptyStringsStripped` as called
from there is out of range; on the empty text it returns no title, no body
line and no tags. -/
theorem prepared_never_panics (text : Str) :
    (∃ title body tags, prepared text = some (title, body, tags)) ∧
      prepared [] = some ([], [], none) :=
  ⟨prepared_total text, by decide⟩

/-- C14, as the claim states it: on the empty line, `paragraph`, the empty
line and the tag line the body is not the empty line followed by
`paragraph`. -/
theorem preparedBody_drops_leading_blank :
    preparedBody [[], "paragraph".toList, [], "Tags: one-tag".toList]
      ≠ some ([[], "paragraph".toList], some ["one-tag".toList]) := by
  decide

/-- C14, amended: on the empty line, `paragraph`, the empty line and the tag
line `preparedBody` returns the body `paragraph` alone and the tag
`one-tag`. -/
theorem preparedBody_round_trip :
    preparedBody [[], "paragraph".toList, [], "Tags: one-tag".toList]
      = some (["paragraph".toList], some ["one-tag".toList]) := by
  decide

/-- C19, as the claim states it: on two empty strings `emptyStringsStripped`
slices out of range: at index 1 the slice has length 1 and `strings[2:]` is
taken; on one empty string, and on a string followed by an empty one, it
returns. -/
theorem emptyStringsStripped_panics :
    emptyStringsStripped [[], []] = none ∧
      emptyStringsStrippedLoop [0] ([[], []], 2) = some ([[], []], 1) ∧
      emptyStringsStrippedStep 1 ([[], []], 1) = none ∧
      emptyStringsStripped [[]] = some [] ∧
      emptyStringsStripped ["a".toList, []] = some ["a".toList] := by
  decide

/-- C13: when the last line is `Tags:` followed by one or more spaces,
`preparedBody` returns no tags and a body whose last line is `Tags:`. -/
theorem preparedBody_tags_spaces_only (pre : List Str) (k : Nat) :
    ∃ body, preparedBody (pre ++ ["Tags:".toList ++ List.replicate (k + 1) ' '])
        = some (body, none) ∧
      body.getLast? = some "Tags:".toList := by
  have hne : "Tags:".toList ++ List.replicate (k + 1) ' ' ≠ [] := by simp
  obtain ⟨pre', hN⟩ := normalized_append_singleton pre _ hne
  have htrim : TrimRight "Tags:".toList [' '] = "Tags:".toList := by decide
  rw [TrimRight_append_spaces, htrim] at hN
  refine ⟨normalized (pre ++ ["Tags:".toList ++ List.replicate (k + 1) ' ']), ?_, ?_⟩
  · apply preparedBody_noTagLine
    rintro ⟨-, ⟨last, hlast, hp⟩, -⟩
    rw [hN] at hlast
    simp only [List.length_append, List.length_singleton, Nat.add_sub_cancel] at hlast
    rw [List.getElem?_append_right (Nat.le_refl _)] at hlast
    simp only [Nat.sub_self, List.getElem?_cons_zero, Option.some.injEq] at hlast
    subst hlast
    exact absurd hp (by decide)
  · rw [hN]
    simp

/-- C16: a tag list that `preparedBody` returns has a last element, which is
not empty; so has one that `prepared` returns, and the container `ToHTML`
writes for it is not the container without anchors. -/
theorem tags_never_empty :
    (∀ (lines body tags : List Str), preparedBody lines = some (body, some tags) →
      tags ≠ [] ∧ ∃ x, tags.getLast? = some x ∧ x ≠ []) ∧
    (∀ (text title : Str) (body tags : List Str),
      prepared text = some (title, body, some tags) →
      (∃ x, tags.getLast? = some x ∧ x ≠ []) ∧
        ∀ w, tagsToHTML w tags
          ≠ w ++ "<div class=\"taglist\">\n<strong>Tags:</strong>\n</div>\n".toList) := by
  constructor
  · intro lines body tags h
    obtain ⟨x, hx, hxne⟩ := preparedBody_tags_getLast? lines body tags h
    refine ⟨?_, x, hx, hxne⟩
    intro h0
    rw [h0] at hx
    simp at hx
  · intro text title body tags h
    obtain ⟨x, hx, hxne⟩ := prepared_tags_getLast? text title body tags h
    refine ⟨⟨x, hx, hxne⟩, fun w => tagsToHTML_ne_empty w tags ?_⟩
    intro h0
    rw [h0] at hx
    simp at hx

/-- C16, at the lines `x`, the empty line and a tag line with two tags, and at
the same lines after a title. -/
theorem tags_never_empty_witness :
    (["a".toList, "b".toList] ≠ [] ∧
        ∃ x, ["a".toList, "b".toList].getLast? = some x ∧ x ≠ []) ∧
      ((∃ x, ["a".toList, "b".toList].getLast? = some x ∧ x ≠ []) ∧
        ∀ w, tagsToHTML w ["a".toList, "b".toList]
          ≠ w ++ "<div class=\"taglist\">\n<strong>Tags:</strong>\n</div>\n".toList) :=
  ⟨tags_never_empty.1 ["x".toList, [], "Tags: a b".toList] ["x".toList]
      ["a".toList, "b".toList] (by decide),
    tags_never_empty.2 "title\n\nx\n\nTags: a b".toList "title".toList ["x".toList]
      ["a".toList, "b".toList] (by decide)⟩

/-- C17: on a text whose first and last lines are not empty, none of whose
lines ends with a space, whose second line is not empty and which does not end
with a blank line followed by a line starting with `Tags: `, `prepared` returns
no title, no tags and the lines of the text, which joined by line feeds are the
text; so the body formatter receives the text itself. -/
theorem prepared_normal_form (text : Str)
    (h0 : (Split text '\n').head? ≠ some [])
    (hl : (Split text '\n').getLast? ≠ some [])
    (hs : ∀ l ∈ Split text '\n', l.getLast? ≠ some ' ')
    (h1 : (Split text '\n')[1]? ≠ some [])
    (ht : ¬ (2 ≤ (Split text '\n').length ∧
      (∃ last, (Split text '\n').getLast? = some last ∧ "Tags: ".toList <+: last) ∧
      (Split text '\n')[(Split text '\n').length - 2]? = some [])) :
    prepared text = some ([], Split text '\n', none) ∧
      Join (Split text '\n') ['\n'] = text ∧
      ∀ (docToHTML : Str → Words → Str) (words : Words),
        ToHTMLString docToHTML text words = some (docToHTML text words) := by
  have hN := normalized_eq_self (Split text '\n') h0 hl hs
  have hbody : preparedBody (Split text '\n') = some (Split text '\n', none) := by
    have := preparedBody_noTagLine (Split text '\n') (by
      rw [hN]
      intro hc
      apply ht
      rw [List.getLast?_eq_getElem?]
      exact hc)
    rw [hN] at this
    exact this
  have hprep : prepared text = some ([], Split text '\n', none) := by
    obtain ⟨body, tags, hb, hp⟩ := (prepared_branches text _ rfl).2 (fun hc => h1 hc.2.2)
    rw [hbody] at hb
    simp only [Option.some.injEq, Prod.mk.injEq] at hb
    obtain ⟨rfl, rfl⟩ := hb
    exact hp
  refine ⟨hprep, Join_Split text '\n', ?_⟩
  intro docToHTML words
  unfold ToHTMLString ToHTML
  simp [hprep, Join_Split]

/-- C17, at a text of two paragraphs. -/
theorem prepared_normal_form_witness :
    prepared "First line\nsecond line\n\n  last".toList
        = some ([], Split "First line\nsecond line\n\n  last".toList '\n', none) ∧
      Join (Split "First line\nsecond line\n\n  last".toList '\n') ['\n']
        = "First line\nsecond line\n\n  last".toList ∧
      ∀ (docToHTML : Str → Words → Str) (words : Words),
        ToHTMLString docToHTML "First line\nsecond line\n\n  last".toList words
          = some (docToHTML "First line\nsecond line\n\n  last".toList words) :=
  prepared_normal_form "First line\nsecond line\n\n  last".toList
    (by decide) (by decide) (by decide) (by decide) (by decide)

/-- C11: `titleToHTML` writes the escaped title between `<h2>` and `</h2>`,
`tagsToHTML` writes the escaped tag as link target and as text of every anchor,
and an escaped text has no `<`, `>`, double quote or single quote, while every
`&` in it begins one of the entities of the escaping. -/
theorem escaped_text_is_inert (w title : Str) (tags : List Str) :
    titleToHTML w title = w ++ "<h2>".toList ++ HTMLEscapeString title ++ "</h2>\n".toList ∧
      tagsToHTML w tags
        = w ++ "<div class=\"taglist\">\n<strong>Tags:</strong>\n".toList ++
          (tags.map (fun tag => "<a href=\"/tag/".toList ++ HTMLEscapeString tag ++
            "\" rel=\"tag\">".toList ++ HTMLEscapeString tag ++ "</a>\n".toList)).flatten ++
          "</div>\n".toList ∧
      (∀ (s : Str), ∀ d ∈ HTMLEscapeString s, d ≠ '<' ∧ d ≠ '>' ∧ d ≠ '"' ∧ d ≠ '\'') ∧
      (∀ (s : Str) (i : Nat), (HTMLEscapeString s)[i]? = some '&' →
        ∃ e ∈ htmlEntities, e <+: (HTMLEscapeString s).drop i) := by
  refine ⟨?_, ?_, HTMLEscapeString_chars, HTMLEscapeString_amp⟩
  · simp [titleToHTML]
  · rw [tagsToHTML_eq]
    simp [List.append_assoc]

/-- C11, at a text with four of the escaped characters. -/
theorem escaped_text_is_inert_witness :
    HTMLEscapeString "a<b>&\"c\"".toList = "a&lt;b&gt;&amp;&#34;c&#34;".toList ∧
      ∃ e ∈ htmlEntities, e <+: (HTMLEscapeString "a<b>&\"c\"".toList).drop 10 :=
  ⟨by decide, (escaped_text_is_inert [] [] []).2.2.2 "a<b>&\"c\"".toList 10 (by decide)⟩

/-- C15: `leadingBlankStripped` removes the longest run of empty strings at
the front, `trailingBlankStripped` the longest run at the end, and
`trailingSpacesStripped` the trailing spaces of every element, keeping length
and order; each recursion ends within `len(lines) + 1` calls. -/
theorem strip_helpers_refine (lines : List Str) :
    leadingBlankStripped lines = lines.dropWhile (fun l => decide (l = [])) ∧
      trailingBlankStripped lines = lines.rdropWhile (fun l => decide (l = [])) ∧
      trailingSpacesStripped lines
        = lines.map (fun l => l.rdropWhile (fun c => decide (c = ' '))) ∧
      (trailingSpacesStripped lines).length = lines.length ∧
      leadingBlankStrippedFuel (lines.length + 1) lines = some (leadingBlankStripped lines) ∧
      trailingBlankStrippedFuel (lines.length + 1) lines
        = some (trailingBlankStripped lines) := by
  have hmap : trailingSpacesStripped lines
      = lines.map (fun l => l.rdropWhile (fun c => decide (c = ' '))) := by
    rw [trailingSpacesStripped_eq_map]
    apply List.map_congr_left
    intro l _
    exact TrimRight_space l
  refine ⟨leadingBlankStripped_eq_dropWhile lines, trailingBlankStripped_eq_rdropWhile lines,
    hmap, ?_, leadingBlankStrippedFuel_eq _ lines (Nat.lt_succ_self _), ?_⟩
  · rw [hmap, List.length_map]
  · rw [trailingBlankStrippedFuel_eq _ lines (Nat.lt_succ_self _),
      trailingBlankStripped_eq_rdropWhile]

/-- C18: on a list whose last element is not empty and in which no two
neighbours are both empty, `emptyStringsStripped` returns the elements that are
not empty, in order; so the tags of a detected tag line are the fragments that
are not empty when the text after `Tags: ` does not begin with two spaces and
has no three spaces in a row. -/
theorem emptyStringsStripped_filter :
    (∀ (strs : List Str) (x : Str), strs.getLast? = some x → x ≠ [] →
      List.Chain' (fun a b : Str => ¬ (a = [] ∧ b = [])) strs →
      emptyStringsStripped strs = some (strs.filter (fun s => decide (s ≠ [])))) ∧
    (∀ (lines : List Str) (last : Str), 2 ≤ (normalized lines).length →
      (normalized lines).getLast? = some last → "Tags: ".toList <+: last →
      (normalized lines)[(normalized lines).length - 2]? = some [] →
      ¬ [' ', ' '] <+: last.drop "Tags: ".toList.length →
      ¬ [' ', ' ', ' '] <:+: last.drop "Tags: ".toList.length →
      preparedBody lines
        = some ((normalized lines).take ((normalized lines).length - 2),
            some ((Split (last.drop "Tags: ".toList.length) ' ').filter
              (fun s => decide (s ≠ []))))) := by
  constructor
  · intro strs x hlast hx hchain
    exact emptyStringsStripped_eq_filter strs x hlast hx hchain
  · intro lines last h2 hlast hp hb hs2 hs3
    rw [List.getLast?_eq_getElem?] at hlast
    obtain ⟨tags, x, ht, -, -, hr⟩ := preparedBody_tagLine lines last h2 hlast hp hb
    have htrim := normalized_getLast? lines last (List.getElem?_mem hlast)
    obtain ⟨hne, hsp⟩ := tagText_ne_nil last hp htrim
    obtain ⟨y, hy, hyne⟩ := Split_getLast?_ne_nil _ ' ' hne hsp
    have hch := (Split_chain _ hne hsp hs3).2 hs2
    rw [emptyStringsStripped_eq_filter _ y hy hyne hch] at ht
    rw [hr, ← Option.some.inj ht]

/-- C18, at a list with single empty strings between others, and at a tag
line with one space before the first tag and two between the tags. -/
theorem emptyStringsStripped_filter_witness :
    emptyStringsStripped [[], "a".toList, [], "b".toList, [], "c".toList]
        = some ["a".toList, "b".toList, "c".toList] ∧
      preparedBody ["x".toList, [], "Tags:  a  b".toList]
        = some (["x".toList], some ["a".toList, "b".toList]) :=
  ⟨emptyStringsStripped_filter.1 [[], "a".toList, [], "b".toList, [], "c".toList]
      "c".toList (by decide) (by decide) (by simp),
    emptyStringsStripped_filter.2 ["x".toList, [], "Tags:  a  b".toList]
      "Tags:  a  b".toList (by decide) (by decide) (by decide) (by decide) (by decide)
      (by decide)⟩

/-- C19, amended: `emptyStringsStripped` returns, with every slice expression
in range, on exactly the lists that do not both end with an empty string and
hold another empty string before it; among them is every list whose last
string is not empty. -/
theorem emptyStringsStripped_returns_iff (strs : List Str) :
    (∃ r, emptyStringsStripped strs = some r) ↔
      ¬ (strs.getLast? = some [] ∧ [] ∈ strs.dropLast) := by
  constructor
  · rintro ⟨r, hr⟩ ⟨hlast, hmem⟩
    obtain ⟨j, hj⟩ := List.mem_iff_getElem?.mp hmem
    rw [List.getElem?_dropLast] at hj
    have hjlt : j < strs.length - 1 := by
      by_contra hc
      rw [if_neg hc] at hj
      exact absurd hj (by simp)
    rw [if_pos hjlt] at hj
    have hex : ∃ i, i + 2 ≤ strs.length ∧ strs.getD i [] = [] :=
      ⟨j, by omega, by rw [List.getD_eq_getElem?_getD, hj]; rfl⟩
    have hspec := Nat.find_spec hex
    have hnone := emptyStringsStripped_eq_none strs (Nat.find hex)
      (fun i hi h0 => Nat.find_min hex hi ⟨by omega, h0⟩) hspec.2 hspec.1 hlast
    rw [hnone] at hr
    exact absurd hr (by simp)
  · intro h
    cases hl : strs.getLast? with
    | none =>
      have : strs = [] := List.getLast?_eq_none_iff.mp hl
      subst this
      exact ⟨[], by decide⟩
    | some x =>
      by_cases hx : x = []
      · subst hx
        apply emptyStringsStripped_of_no_empty_before
        intro i hi h0
        apply h
        refine ⟨hl, List.mem_iff_getElem?.mpr ⟨i, ?_⟩⟩
        rw [List.getElem?_dropLast, if_pos (by omega)]
        have hlt : i < strs.length := by omega
        rw [List.getD_eq_getElem?_getD, List.getElem?_eq_getElem hlt] at h0
        rw [List.getElem?_eq_getElem hlt]
        exact congrArg some h0
      · obtain ⟨r, hr, -⟩ := emptyStringsStripped_of_getLast_ne_nil strs x hl hx
        exact ⟨r, hr⟩

/-- C19, amended, at a list that ends with its only empty string, at a list
with empty strings before a last string that is not empty, and at the list of
one empty string. -/
theorem emptyStringsStripped_returns_iff_witness :
    (∃ r, emptyStringsStripped ["a".toList, []] = some r) ∧
      (∃ r, emptyStringsStripped [[], [], "a".toList] = some r) ∧
      (∃ r, emptyStringsStripped [[]] = some r) :=
  ⟨(emptyStringsStripped_returns_iff ["a".toList, []]).mpr (by decide),
    (emptyStringsStripped_returns_iff [[], [], "a".toList]).mpr (by decide),
    (emptyStringsStripped_returns_iff [[]]).mpr (by decide)⟩

end Markgone
